import Mathlib

/-!
Verification of the dijon rhythm-analysis core against its specification.

The Python sources are shallowly embedded over exact arithmetic:
NumPy float arrays become lists over a linear ordered field (instantiated at
`ℝ` where the source uses transcendental functions such as `log2`, `cos` or
`angle`, and at `ℚ` when a witness is evaluated), and a NumPy out-of-bounds
crash is modelled by an `Option`/`Except` result.

Sources embedded below:
- `src/dijon/beats/tracking.py`   (`compute_penalty`, `compute_beat_sequence`)
- `src/dijon/beats/meter.py`      (`estimate_beats_per_bar`, `label_bars_and_beats`)
- `src/dijon/novelty/methods.py`  (`compute_novelty_energy`, `compute_novelty_complex`,
                                   `_resample_novelty_to_target`)
- `src/dijon/novelty/normalize.py` (`compute_local_average`)
- `src/dijon/tempogram/methods.py` (the three tempogram methods)
- `src/dijon/chromagram/methods.py` (`_extract_beat_times_from_meter_map`)
- `notebooks/scratch/widget/widget_novelty.py` (`get_novelty_for_method`,
                                   the batch complex-novelty variant)
-/

namespace Dijon

/-! ### Generic array helpers (NumPy `argmax` / `argmin` / `max` semantics) -/

/-- Helper for `argmaxList`: scan the tail keeping the first index of the
running maximum, exactly as `np.argmax` does (updates only on a strict
increase, so ties resolve to the lowest index). -/
def argmaxAux {α : Type*} [LinearOrder α] (best : α) (bi i : ℕ) : List α → ℕ
  | [] => bi
  | h :: t => if best < h then argmaxAux h i (i + 1) t else argmaxAux best bi (i + 1) t

/-- `np.argmax`: index of the first occurrence of the maximum (0 on empty input,
which NumPy rejects; all uses below are on nonempty lists). -/
def argmaxList {α : Type*} [LinearOrder α] : List α → ℕ
  | [] => 0
  | h :: t => argmaxAux h 0 1 t

/-- Helper for `argminList`, mirror image of `argmaxAux` (`np.argmin`). -/
def argminAux {α : Type*} [LinearOrder α] (best : α) (bi i : ℕ) : List α → ℕ
  | [] => bi
  | h :: t => if h < best then argminAux h i (i + 1) t else argminAux best bi (i + 1) t

/-- `np.argmin`: index of the first occurrence of the minimum. -/
def argminList {α : Type*} [LinearOrder α] : List α → ℕ
  | [] => 0
  | h :: t => argminAux h 0 1 t

/-- `np.max` of a nonempty array (0 on empty input, which NumPy rejects). -/
def listMax {α : Type*} [LinearOrder α] [Zero α] : List α → α
  | [] => 0
  | [x] => x
  | x :: y :: t => max x (listMax (y :: t))

theorem le_listMax {α : Type*} [LinearOrder α] [Zero α] {l : List α} {x : α}
    (hx : x ∈ l) : x ≤ listMax l := by
  induction l with
  | nil => cases hx
  | cons h t ih =>
    cases t with
    | nil =>
      rw [List.mem_singleton.mp hx]
      exact le_rfl
    | cons y s =>
      rcases List.mem_cons.mp hx with rfl | hx
      · exact le_max_left _ _
      · exact le_trans (ih hx) (le_max_right _ _)

theorem listMax_le {α : Type*} [LinearOrder α] [Zero α] {l : List α} {b : α}
    (hne : l ≠ []) (hb : ∀ x ∈ l, x ≤ b) : listMax l ≤ b := by
  induction l with
  | nil => exact absurd rfl hne
  | cons h t ih =>
    cases t with
    | nil => exact hb h (List.mem_singleton.mpr rfl)
    | cons y s =>
      refine max_le (hb h (List.mem_cons_self _ _)) (ih (List.cons_ne_nil _ _) ?_)
      intro x hx
      exact hb x (List.mem_cons_of_mem _ hx)

theorem argmaxAux_cases {α : Type*} [LinearOrder α] (t : List α) :
    ∀ (best : α) (bi i : ℕ), argmaxAux best bi i t = bi ∨
      (i ≤ argmaxAux best bi i t ∧ argmaxAux best bi i t < i + t.length) := by
  induction t with
  | nil => intro best bi i; exact Or.inl rfl
  | cons h s ih =>
    intro best bi i
    by_cases hlt : best < h
    · simp only [argmaxAux, if_pos hlt]
      rcases ih h i (i + 1) with heq | ⟨h1, h2⟩
      · right
        refine ⟨le_of_eq heq.symm, ?_⟩
        rw [heq]
        simp only [List.length_cons]
        omega
      · right
        constructor
        · omega
        · simp only [List.length_cons]
          omega
    · simp only [argmaxAux, if_neg hlt]
      rcases ih best bi (i + 1) with heq | ⟨h1, h2⟩
      · exact Or.inl heq
      · right
        constructor
        · omega
        · simp only [List.length_cons]
          omega

theorem argmaxAux_ge {α : Type*} [LinearOrder α] (t : List α) :
    ∀ (best : α) (bi i : ℕ), (∃ x ∈ t, best < x) → i ≤ argmaxAux best bi i t := by
  induction t with
  | nil =>
    intro best bi i hx
    rcases hx with ⟨x, hx, _⟩
    cases hx
  | cons h s ih =>
    intro best bi i hx
    by_cases hlt : best < h
    · simp only [argmaxAux, if_pos hlt]
      rcases argmaxAux_cases s h i (i + 1) with heq | ⟨h1, _⟩
      · omega
      · omega
    · simp only [argmaxAux, if_neg hlt]
      rcases hx with ⟨x, hmem, hbx⟩
      rcases List.mem_cons.mp hmem with rfl | hmem
      · exact absurd hbx hlt
      · have := ih best bi (i + 1) ⟨x, hmem, hbx⟩
        omega

theorem argmaxList_lt_length {α : Type*} [LinearOrder α] {l : List α}
    (hne : l ≠ []) : argmaxList l < l.length := by
  cases l with
  | nil => exact absurd rfl hne
  | cons h t =>
    simp only [argmaxList, List.length_cons]
    rcases argmaxAux_cases t h 0 1 with heq | ⟨_, h2⟩
    · omega
    · omega

theorem argmaxList_pos {α : Type*} [LinearOrder α] {h : α} {t : List α}
    (hx : ∃ x ∈ t, h < x) : 1 ≤ argmaxList (h :: t) := by
  simpa [argmaxList] using argmaxAux_ge t h 0 1 hx

/-! ### Beat tracker (`src/dijon/beats/tracking.py`)

`compute_beat_sequence` pads the novelty curve with one leading zero and runs
the forward DP over 1-based indices `1..N`; `D[0] = 0` and `P[0] = 0` act as
sentinels.  The embedding keeps that exact layout.  The penalty enters as the
already `factor`-scaled lag-indexed function, matching the Python parameter
(`penalty * factor`); `computeBeatSequence` below plugs in `compute_penalty`'s
array as the source does when `penalty=None`. -/

variable {α : Type*} [LinearOrderedField α]

/-- The padded novelty `np.concatenate(([0.0], novelty))` as a total function:
index `0` is the sentinel, index `i + 1` is `novelty[i]`. -/
def nov1 (novelty : List α) (i : ℕ) : α :=
  if i = 0 then 0 else novelty.getD (i - 1) 0

/-- The score list of forward step `n`:
`scores = D[m] + penalty[n - m]` for `m = 1 .. n - 1`, where `Dl` holds
`[D 0, ..., D (n-1)]`. -/
def dpScores (pen : ℕ → α) (Dl : List α) (n : ℕ) : List α :=
  (List.range (n - 1)).map (fun j => Dl.getD (j + 1) 0 + pen (n - (j + 1)))

/-- The forward pass of `compute_beat_sequence`: returns
`([D 0, ..., D n], [P 0, ..., P n])`.  `D[1] = novelty[1]` is the
initialisation line of the source; each later step takes the branch on
`score_max <= 0` exactly as the Python loop does. -/
def dpForward (pen : ℕ → α) (nov : ℕ → α) : ℕ → List α × List ℕ
  | 0 => ([0], [0])
  | 1 => ([0, nov 1], [0, 0])
  | n + 2 =>
    let prev := dpForward pen nov (n + 1)
    let scores := dpScores pen prev.1 (n + 2)
    let smax := listMax scores
    if smax ≤ 0 then (prev.1 ++ [nov (n + 2)], prev.2 ++ [0])
    else (prev.1 ++ [nov (n + 2) + smax], prev.2 ++ [argmaxList scores + 1])

/-- The backtracking loop `while P[B[k]] != 0: B[k+1] = P[B[k]]`, producing the
chain of 1-based indices starting at `i`.  `fuel` bounds the recursion; since
every backpointer satisfies `P i < i`, fuel `i` is always enough. -/
def backtrack (P : ℕ → ℕ) : ℕ → ℕ → List ℕ
  | 0, i => [i]
  | fuel + 1, i => if P i = 0 then [i] else i :: backtrack P fuel (P i)

/-- `compute_beat_sequence` with an explicitly supplied (already scaled)
penalty function.  Returns `none` for an empty novelty curve: the source then
executes `D[1] = novelty[1]` on length-1 arrays, which raises `IndexError`.
The result indices are 0-based (`B[:k+1][::-1] - 1`), hence integers: the
sentinel start index 0 maps to `-1`. -/
def computeBeatSequenceP (novelty : List α) (pen : ℕ → α) : Option (List ℤ) :=
  let N := novelty.length
  if N = 0 then none
  else
    let DP := dpForward pen (nov1 novelty) N
    let start := argmaxList DP.1
    let chain := backtrack (fun i => DP.2.getD i 0) start start
    some (chain.reverse.map (fun i : ℕ => (i : ℤ) - 1))

/-- `compute_penalty(N, beat_ref)`: `np.concatenate(([0.0], -(log2(arange(1, N)
/ beat_ref))**2))`.  Length `max N 1` exactly as in NumPy (for `N ≤ 1` the
`arange` is empty). -/
noncomputable def computePenalty (N : ℕ) (beatRef : ℝ) : List ℝ :=
  0 :: (List.range (N - 1)).map (fun i : ℕ => -(Real.logb 2 (((i : ℝ) + 1) / beatRef)) ^ 2)

/-- `compute_beat_sequence(novelty, beat_ref, penalty=None, factor)`: the
penalty array is computed from `beat_ref` and scaled by `factor`, then the DP
runs.  Out-of-range penalty indices never occur in the loop (`1 ≤ n - m ≤ N-1`),
so reading the array through `getD` is faithful. -/
noncomputable def computeBeatSequence (novelty : List ℝ) (beatRef factor : ℝ) :
    Option (List ℤ) :=
  computeBeatSequenceP novelty
    (fun d => ((computePenalty novelty.length beatRef).map (· * factor)).getD d 0)

/-- Spec-side accumulated score, written from the specification sentence
"`D[n] = novelty[n] + max(0, max over m<n of D[m] + penalty[n-m])`" (0-based,
no padding).  The empty inner maximum is absorbed by the outer `max 0`. -/
def specD (nov : ℕ → α) (pen : ℕ → α) : ℕ → α
  | n =>
    nov n + max 0 (listMax ((List.range n).attach.map
      (fun m => specD nov pen m.1 + pen (n - m.1))))
decreasing_by exact List.mem_range.mp m.2

/-- The spec-side score list of step `n` (0-based predecessors `m < n`). -/
def specScores (nov : ℕ → α) (pen : ℕ → α) (n : ℕ) : List α :=
  (List.range n).map (fun m => specD nov pen m + pen (n - m))

theorem specD_eq (nov pen : ℕ → α) (n : ℕ) :
    specD nov pen n = nov n + max 0 (listMax (specScores nov pen n)) := by
  rw [specD, specScores]
  congr 2
  have h : (List.range n).attach.map (fun m => specD nov pen m.1 + pen (n - m.1))
      = ((List.range n).attach.map Subtype.val).map
        (fun m => specD nov pen m + pen (n - m)) := by
    rw [List.map_map]
    rfl
  rw [h, List.attach_map_subtype_val]

theorem dpForward_fst_length (pen nov : ℕ → α) :
    ∀ n, ((dpForward pen nov n).1).length = n + 1 := by
  intro n
  induction n with
  | zero => rfl
  | succ m ih =>
    match m, ih with
    | 0, _ => rfl
    | k + 1, ih =>
      rw [dpForward]
      by_cases h : listMax (dpScores pen (dpForward pen nov (k + 1)).1 (k + 2)) ≤ 0
      · simp only [if_pos h, List.length_append, List.length_singleton]
        omega
      · simp only [if_neg h, List.length_append, List.length_singleton]
        omega

theorem dpForward_snd_length (pen nov : ℕ → α) :
    ∀ n, ((dpForward pen nov n).2).length = n + 1 := by
  intro n
  induction n with
  | zero => rfl
  | succ m ih =>
    match m, ih with
    | 0, _ => rfl
    | k + 1, ih =>
      rw [dpForward]
      by_cases h : listMax (dpScores pen (dpForward pen nov (k + 1)).1 (k + 2)) ≤ 0
      · simp only [if_pos h, List.length_append, List.length_singleton]
        omega
      · simp only [if_neg h, List.length_append, List.length_singleton]
        omega

theorem dpForward_succ (pen nov : ℕ → α) (n : ℕ) (hn : 1 ≤ n) :
    ∃ v p, dpForward pen nov (n + 1) =
      ((dpForward pen nov n).1 ++ [v], (dpForward pen nov n).2 ++ [p]) := by
  match n, hn with
  | k + 1, _ =>
    rw [dpForward]
    by_cases h : listMax (dpScores pen (dpForward pen nov (k + 1)).1 (k + 2)) ≤ 0
    · exact ⟨nov (k + 2), 0, by simp only [if_pos h]⟩
    · exact ⟨nov (k + 2) + listMax (dpScores pen (dpForward pen nov (k + 1)).1 (k + 2)),
        argmaxList (dpScores pen (dpForward pen nov (k + 1)).1 (k + 2)) + 1,
        by simp only [if_neg h]⟩

theorem dpForward_getD_stable (pen nov : ℕ → α) :
    ∀ N n, 1 ≤ n → n ≤ N → ∀ i ≤ n,
      (dpForward pen nov N).1.getD i 0 = (dpForward pen nov n).1.getD i 0 ∧
      (dpForward pen nov N).2.getD i 0 = (dpForward pen nov n).2.getD i 0 := by
  intro N
  induction N with
  | zero =>
    intro n h1 hle i hi
    omega
  | succ M ih =>
    intro n h1 hle i hi
    rcases Nat.lt_or_ge n (M + 1) with hlt | hge
    · have hnM : n ≤ M := by omega
      have h1M : 1 ≤ M := le_trans h1 hnM
      obtain ⟨v, p, hvp⟩ := dpForward_succ pen nov M h1M
      have hilen1 : i < ((dpForward pen nov M).1).length := by
        rw [dpForward_fst_length]
        omega
      have hilen2 : i < ((dpForward pen nov M).2).length := by
        rw [dpForward_snd_length]
        omega
      rw [hvp]
      constructor
      · rw [List.getD_append _ _ _ _ hilen1]
        exact (ih n h1 hnM i hi).1
      · rw [List.getD_append _ _ _ _ hilen2]
        exact (ih n h1 hnM i hi).2
    · have : n = M + 1 := by omega
      rw [this]
      exact ⟨rfl, rfl⟩

theorem branch_eq_max (x s : α) : (if s ≤ 0 then x else x + s) = x + max 0 s := by
  by_cases h : s ≤ 0
  · rw [if_pos h, max_eq_left h, add_zero]
  · rw [if_neg h, max_eq_right (le_of_lt (lt_of_not_le h))]

theorem getD_concat {β : Type*} (l : List β) (v d : β) (n : ℕ) (h : n = l.length) :
    (l ++ [v]).getD n d = v := by
  subst h
  rw [List.getD_append_right l [v] d l.length (le_refl _)]
  simp

/-- The source's score list at step `n + 2` coincides with the spec-side score
list at 0-based step `n + 1`, assuming the already-proved prefix of `D` agrees
with `specD`. -/
theorem dpScores_eq_specScores (pen : ℕ → α) (novelty : List α) (n : ℕ)
    (hIH : ∀ m ≤ n, (dpForward pen (nov1 novelty) (n + 1)).1.getD (m + 1) 0 =
      specD (fun i => novelty.getD i 0) pen m) :
    dpScores pen (dpForward pen (nov1 novelty) (n + 1)).1 (n + 2) =
      specScores (fun i => novelty.getD i 0) pen (n + 1) := by
  unfold dpScores specScores
  refine List.map_congr_left ?_
  intro j hj
  have hjn : j ≤ n := by
    have := List.mem_range.mp hj
    omega
  have h1 : n + 2 - (j + 1) = n + 1 - j := by omega
  rw [h1, hIH j hjn]

/-- Forward-pass correctness: the code's `D[n+1]` (with its leading sentinel)
equals the specification's 0-based `D[n]`. -/
theorem dp_D_eq_specD (pen : ℕ → α) (novelty : List α) :
    ∀ n, (dpForward pen (nov1 novelty) (n + 1)).1.getD (n + 1) 0 =
      specD (fun i => novelty.getD i 0) pen n := by
  intro n
  induction n using Nat.strong_induction_on with
  | _ n ih =>
    match n with
    | 0 =>
      rw [specD_eq]
      simp [dpForward, nov1, specScores, listMax]
    | m + 1 =>
      have hIH : ∀ k ≤ m, (dpForward pen (nov1 novelty) (m + 1)).1.getD (k + 1) 0 =
          specD (fun i => novelty.getD i 0) pen k := by
        intro k hk
        have hst := (dpForward_getD_stable pen (nov1 novelty) (m + 1) (k + 1)
          (by omega) (by omega) (k + 1) (le_refl _)).1
        rw [hst]
        exact ih k (by omega)
      have hscores := dpScores_eq_specScores pen novelty m hIH
      rw [dpForward]
      rw [hscores]
      set s := listMax (specScores (fun i => novelty.getD i 0) pen (m + 1)) with hs
      have hlen : ((dpForward pen (nov1 novelty) (m + 1)).1).length = m + 2 :=
        dpForward_fst_length pen (nov1 novelty) (m + 1)
      by_cases h : s ≤ 0
      · simp only [if_pos h]
        rw [getD_concat _ _ _ _ hlen.symm]
        rw [specD_eq, ← hs, max_eq_left h, add_zero]
        simp [nov1]
      · simp only [if_neg h]
        rw [getD_concat _ _ _ _ hlen.symm]
        rw [specD_eq, ← hs, max_eq_right (le_of_lt (lt_of_not_le h))]
        simp [nov1]

/-- Backpointer correctness at step `n + 2` (code index): the sentinel `0` is
stored exactly when the unconstrained maximum is `≤ 0`, and otherwise the
stored value is one more than the spec-side first argmax (the `+1` undoes the
leading pad of the code's arrays). -/
theorem dp_P_eq_spec (pen : ℕ → α) (novelty : List α) (n : ℕ) :
    (dpForward pen (nov1 novelty) (n + 2)).2.getD (n + 2) 0 =
      if listMax (specScores (fun i => novelty.getD i 0) pen (n + 1)) ≤ 0 then 0
      else argmaxList (specScores (fun i => novelty.getD i 0) pen (n + 1)) + 1 := by
  have hIH : ∀ k ≤ n, (dpForward pen (nov1 novelty) (n + 1)).1.getD (k + 1) 0 =
      specD (fun i => novelty.getD i 0) pen k := by
    intro k hk
    have hst := (dpForward_getD_stable pen (nov1 novelty) (n + 1) (k + 1)
      (by omega) (by omega) (k + 1) (le_refl _)).1
    rw [hst]
    exact dp_D_eq_specD pen novelty k
  have hscores := dpScores_eq_specScores pen novelty n hIH
  rw [dpForward, hscores]
  have hlen : ((dpForward pen (nov1 novelty) (n + 1)).2).length = n + 2 :=
    dpForward_snd_length pen (nov1 novelty) (n + 1)
  by_cases h : listMax (specScores (fun i => novelty.getD i 0) pen (n + 1)) ≤ 0
  · simp only [if_pos h]
    rw [getD_concat _ _ _ _ hlen.symm]
  · simp only [if_neg h]
    rw [getD_concat _ _ _ _ hlen.symm]

theorem dpScores_length (pen : ℕ → α) (Dl : List α) (n : ℕ) :
    (dpScores pen Dl n).length = n - 1 := by
  simp [dpScores]

theorem dp_D_getD_zero (pen nov : ℕ → α) (N : ℕ) (hN : 1 ≤ N) :
    (dpForward pen nov N).1.getD 0 0 = 0 := by
  have h := (dpForward_getD_stable pen nov N 1 (le_refl _) hN 0 (by omega)).1
  rw [h]
  rfl

theorem dp_D_ge_nov (pen nov : ℕ → α) :
    ∀ n, 1 ≤ n → nov n ≤ (dpForward pen nov n).1.getD n 0 := by
  intro n hn
  match n, hn with
  | 1, _ => exact le_of_eq rfl
  | k + 2, _ =>
    rw [dpForward]
    have hlen : ((dpForward pen nov (k + 1)).1).length = k + 2 :=
      dpForward_fst_length pen nov (k + 1)
    by_cases h : listMax (dpScores pen (dpForward pen nov (k + 1)).1 (k + 2)) ≤ 0
    · simp only [if_pos h]
      rw [getD_concat _ _ _ _ hlen.symm]
    · simp only [if_neg h]
      rw [getD_concat _ _ _ _ hlen.symm]
      have := lt_of_not_le h
      linarith

theorem dp_P_lt (pen nov : ℕ → α) :
    ∀ n, 1 ≤ n → (dpForward pen nov n).2.getD n 0 < n := by
  intro n hn
  match n, hn with
  | 1, _ => exact Nat.zero_lt_one
  | k + 2, _ =>
    rw [dpForward]
    have hlen : ((dpForward pen nov (k + 1)).2).length = k + 2 :=
      dpForward_snd_length pen nov (k + 1)
    by_cases h : listMax (dpScores pen (dpForward pen nov (k + 1)).1 (k + 2)) ≤ 0
    · simp only [if_pos h]
      rw [getD_concat _ _ _ _ hlen.symm]
      omega
    · simp only [if_neg h]
      rw [getD_concat _ _ _ _ hlen.symm]
      have hne : dpScores pen (dpForward pen nov (k + 1)).1 (k + 2) ≠ [] := by
        intro hcon
        have := dpScores_length pen (dpForward pen nov (k + 1)).1 (k + 2)
        rw [hcon] at this
        simp at this
      have := argmaxList_lt_length hne
      rw [dpScores_length] at this
      omega

theorem backtrack_head (P : ℕ → ℕ) (fuel i : ℕ) :
    (backtrack P fuel i).head? = some i := by
  cases fuel with
  | zero => rfl
  | succ f =>
    rw [backtrack]
    by_cases h : P i = 0
    · rw [if_pos h]
      rfl
    · rw [if_neg h]
      rfl

theorem backtrack_props (P : ℕ → ℕ) (N : ℕ) (hP : ∀ j, 1 ≤ j → j ≤ N → P j < j) :
    ∀ fuel start, 1 ≤ start → start ≤ N → start ≤ fuel →
      List.Chain' (· > ·) (backtrack P fuel start) ∧
      ∀ x ∈ backtrack P fuel start, 1 ≤ x ∧ x ≤ start := by
  intro fuel
  induction fuel with
  | zero =>
    intro start h1 _ hf
    omega
  | succ f ih =>
    intro start h1 hN hf
    rw [backtrack]
    by_cases h : P start = 0
    · rw [if_pos h]
      refine ⟨List.chain'_singleton _, ?_⟩
      intro x hx
      rw [List.mem_singleton.mp hx]
      exact ⟨h1, le_refl _⟩
    · rw [if_neg h]
      have hPlt : P start < start := hP start h1 hN
      have h1' : 1 ≤ P start := Nat.one_le_iff_ne_zero.mpr h
      have hN' : P start ≤ N := le_trans (le_of_lt hPlt) hN
      have hf' : P start ≤ f := by omega
      obtain ⟨hchain, hmem⟩ := ih (P start) h1' hN' hf'
      constructor
      · rw [List.chain'_cons']
        refine ⟨?_, hchain⟩
        intro y hy
        have : y = P start := by
          have := backtrack_head P f (P start)
          rw [this] at hy
          exact (Option.some_inj.mp hy).symm
        omega
      · intro x hx
        rcases List.mem_cons.mp hx with rfl | hx
        · exact ⟨h1, le_refl _⟩
        · obtain ⟨ha, hb⟩ := hmem x hx
          exact ⟨ha, le_trans hb (le_of_lt hPlt)⟩

/-- Core well-formedness of the DP result, for any penalty: on a non-negative
novelty curve with at least one strictly positive value, the returned beat
indices are strictly increasing and are valid 0-based frame indices. -/
theorem computeBeatSequenceP_wellFormed (novelty : List α) (pen : ℕ → α)
    (hpos : ∃ x ∈ novelty, 0 < x) :
    ∃ B, computeBeatSequenceP novelty pen = some B ∧
      List.Chain' (· < ·) B ∧ ∀ b ∈ B, 0 ≤ b ∧ b < (novelty.length : ℤ) := by
  obtain ⟨x, hxmem, hxpos⟩ := hpos
  have hxidx : ∃ i, i < novelty.length ∧ novelty.getD i 0 = x := by
    obtain ⟨ix, hix⟩ := List.mem_iff_get.mp hxmem
    refine ⟨ix.1, ix.isLt, ?_⟩
    rw [List.getD_eq_getElem _ _ ix.isLt]
    rw [← hix]
    simp
  obtain ⟨i0, hi0lt, hi0val⟩ := hxidx
  set N := novelty.length with hNdef
  have hN1 : 1 ≤ N := by omega
  have hNne : N ≠ 0 := by omega
  set nov := nov1 novelty with hnov
  set Dl := (dpForward pen nov N).1 with hDl
  set Pl := (dpForward pen nov N).2 with hPl
  have hDlen : Dl.length = N + 1 := dpForward_fst_length pen nov N
  have hDlne : Dl ≠ [] := by
    intro hc
    rw [hc] at hDlen
    simp at hDlen
  -- the D entry above the positive novelty value is positive
  have hDpos : 0 < Dl.getD (i0 + 1) 0 := by
    have hst := (dpForward_getD_stable pen nov N (i0 + 1) (by omega)
      (by omega) (i0 + 1) (le_refl _)).1
    rw [hDl, hst]
    have hge := dp_D_ge_nov pen nov (i0 + 1) (by omega)
    have hnovval : nov (i0 + 1) = x := by
      rw [hnov, nov1]
      simp only [if_neg (Nat.succ_ne_zero i0), Nat.add_sub_cancel]
      exact hi0val
    rw [hnovval] at hge
    exact lt_of_lt_of_le hxpos hge
  -- hence the global argmax is not the sentinel index 0
  obtain ⟨d0, Dt, hcons⟩ := List.exists_cons_of_ne_nil hDlne
  have hd0 : d0 = 0 := by
    have h0 := dp_D_getD_zero pen nov N hN1
    rw [← hDl, hcons] at h0
    simpa using h0
  have htval : Dl.getD (i0 + 1) 0 = Dt.getD i0 0 := by
    rw [hcons]
    rfl
  have htmem : Dt.getD i0 0 ∈ Dt := by
    have hlt : i0 < Dt.length := by
      have : Dl.length = Dt.length + 1 := by rw [hcons]; simp
      omega
    rw [List.getD_eq_getElem _ _ hlt]
    exact List.getElem_mem hlt
  have hstart1 : 1 ≤ argmaxList Dl := by
    rw [hcons, hd0]
    refine argmaxList_pos ⟨Dt.getD i0 0, htmem, ?_⟩
    rw [← htval]
    exact hDpos
  have hstartN : argmaxList Dl ≤ N := by
    have := argmaxList_lt_length hDlne
    omega
  -- backpointer bound at all positive indices
  have hPbound : ∀ j, 1 ≤ j → j ≤ N → Pl.getD j 0 < j := by
    intro j hj1 hjN
    have hst := (dpForward_getD_stable pen nov N j hj1 hjN j (le_refl _)).2
    rw [hPl, hst]
    exact dp_P_lt pen nov j hj1
  obtain ⟨hchain, hmem⟩ := backtrack_props (fun i => Pl.getD i 0) N hPbound
    (argmaxList Dl) (argmaxList Dl) hstart1 hstartN (le_refl _)
  refine ⟨((backtrack (fun i => Pl.getD i 0) (argmaxList Dl) (argmaxList Dl)).reverse.map
    (fun i : ℕ => (i : ℤ) - 1)), ?_, ?_, ?_⟩
  · rw [computeBeatSequenceP]
    simp only [← hNdef, if_neg hNne, ← hnov, ← hDl, ← hPl]
  · have hrev : List.Chain' (fun a b : ℕ => a < b)
        ((backtrack (fun i => Pl.getD i 0) (argmaxList Dl) (argmaxList Dl)).reverse) := by
      rw [List.chain'_reverse]
      refine List.Chain'.imp ?_ hchain
      intro a b hab
      simp only [flip]
      omega
    refine List.chain'_map_of_chain' (fun i : ℕ => (i : ℤ) - 1) ?_ hrev
    intro a b hab
    show (a : ℤ) - 1 < (b : ℤ) - 1
    omega
  · intro b hb
    obtain ⟨y, hy, hyb⟩ := List.mem_map.mp hb
    obtain ⟨h1, h2⟩ := hmem y (List.mem_reverse.mp hy)
    omega

end Dijon

namespace DijonClaims

open Dijon

/-- Claim C1: `compute_beat_sequence` follows the specified DP.
(a) the (factor-scaled) penalty array has `penalty[0] = 0` and
`penalty[d] = -(log2(d/beat_ref))^2 * factor` for `d = 1 .. N-1`;
(b) the accumulated score at 0-based index `n` (stored at position `n+1` of
the code's padded array) is `novelty[n] + max(0, max over m<n of
D[m] + penalty[n-m])`;
(c) the backpointer holds the "no predecessor" sentinel `0` exactly when the
unconstrained maximum is `≤ 0`, and otherwise records the first best
predecessor (shifted by one by the code's leading pad);
(d) the returned beat indices are the reversed backpointer chain from the
index of the global maximum of `D`, shifted back to 0-based indices. -/
theorem compute_beat_sequence_follows_spec_dp (novelty : List ℝ) (beatRef factor : ℝ)
    (hne : novelty ≠ []) :
    (((computePenalty novelty.length beatRef).map (· * factor)).getD 0 0 = 0 ∧
      (∀ d, 1 ≤ d → d < novelty.length →
        ((computePenalty novelty.length beatRef).map (· * factor)).getD d 0 =
          -(Real.logb 2 ((d : ℝ) / beatRef)) ^ 2 * factor)) ∧
    (∀ n < novelty.length,
      (dpForward (fun d => ((computePenalty novelty.length beatRef).map (· * factor)).getD d 0)
          (nov1 novelty) novelty.length).1.getD (n + 1) 0 =
        novelty.getD n 0 + max 0 (listMax (specScores (fun i => novelty.getD i 0)
          (fun d => ((computePenalty novelty.length beatRef).map (· * factor)).getD d 0) n))) ∧
    ((dpForward (fun d => ((computePenalty novelty.length beatRef).map (· * factor)).getD d 0)
        (nov1 novelty) novelty.length).2.getD 1 0 = 0 ∧
      ∀ n, 1 ≤ n → n < novelty.length →
        ((dpForward (fun d => ((computePenalty novelty.length beatRef).map (· * factor)).getD d 0)
            (nov1 novelty) novelty.length).2.getD (n + 1) 0 = 0 ↔
          listMax (specScores (fun i => novelty.getD i 0)
            (fun d => ((computePenalty novelty.length beatRef).map (· * factor)).getD d 0) n) ≤ 0) ∧
        (¬ listMax (specScores (fun i => novelty.getD i 0)
            (fun d => ((computePenalty novelty.length beatRef).map (· * factor)).getD d 0) n) ≤ 0 →
          (dpForward (fun d => ((computePenalty novelty.length beatRef).map (· * factor)).getD d 0)
              (nov1 novelty) novelty.length).2.getD (n + 1) 0 =
            argmaxList (specScores (fun i => novelty.getD i 0)
              (fun d => ((computePenalty novelty.length beatRef).map (· * factor)).getD d 0) n) + 1)) ∧
    computeBeatSequence novelty beatRef factor =
      some ((backtrack
        (fun i => (dpForward
          (fun d => ((computePenalty novelty.length beatRef).map (· * factor)).getD d 0)
          (nov1 novelty) novelty.length).2.getD i 0)
        (argmaxList (dpForward
          (fun d => ((computePenalty novelty.length beatRef).map (· * factor)).getD d 0)
          (nov1 novelty) novelty.length).1)
        (argmaxList (dpForward
          (fun d => ((computePenalty novelty.length beatRef).map (· * factor)).getD d 0)
          (nov1 novelty) novelty.length).1)).reverse.map (fun i : ℕ => (i : ℤ) - 1)) := by
  have hN1 : 1 ≤ novelty.length := List.length_pos.mpr hne
  have hNne : novelty.length ≠ 0 := by omega
  refine ⟨⟨?_, ?_⟩, ?_, ⟨?_, ?_⟩, ?_⟩
  · simp [computePenalty]
  · intro d hd1 hdN
    match d, hd1 with
    | e + 1, _ =>
      rw [computePenalty]
      simp only [List.map_cons, List.getD_cons_succ, List.map_map]
      have hlt : e < novelty.length - 1 := by omega
      rw [List.getD_eq_getElem _ _ (by simpa using hlt)]
      simp only [List.getElem_map, List.getElem_range, Function.comp]
      push_cast
      ring_nf
  · intro n hn
    have hst := (dpForward_getD_stable
      (fun d => ((computePenalty novelty.length beatRef).map (· * factor)).getD d 0)
      (nov1 novelty) novelty.length (n + 1) (by omega) (by omega) (n + 1) (le_refl _)).1
    rw [hst, dp_D_eq_specD, specD_eq]
  · have hst := (dpForward_getD_stable
      (fun d => ((computePenalty novelty.length beatRef).map (· * factor)).getD d 0)
      (nov1 novelty) novelty.length 1 (le_refl _) hN1 1 (le_refl _)).2
    rw [hst]
    rfl
  · intro n h1 hN
    match n, h1 with
    | m + 1, _ =>
      have hst := (dpForward_getD_stable
        (fun d => ((computePenalty novelty.length beatRef).map (· * factor)).getD d 0)
        (nov1 novelty) novelty.length (m + 2) (by omega) (by omega) (m + 2) (le_refl _)).2
      rw [hst, dp_P_eq_spec]
      by_cases h : listMax (specScores (fun i => novelty.getD i 0)
          (fun d => ((computePenalty novelty.length beatRef).map (· * factor)).getD d 0)
          (m + 1)) ≤ 0
      · rw [if_pos h]
        exact ⟨iff_of_true rfl h, fun hcon => absurd h hcon⟩
      · rw [if_neg h]
        refine ⟨iff_of_false (Nat.succ_ne_zero _) h, fun _ => rfl⟩
  · rw [computeBeatSequence]
    simp only [computeBeatSequenceP, if_neg hNne]

/-- Witness for C1: the DP characterisation instantiated at the concrete curve
`[1]` with reference period 2 and factor 1 (part (d) of the conjunction). -/
theorem compute_beat_sequence_follows_spec_dp_witness :
    computeBeatSequence [(1 : ℝ)] 2 1 =
      some ((backtrack
        (fun i => (dpForward
          (fun d => ((computePenalty (List.length [(1 : ℝ)]) 2).map (· * 1)).getD d 0)
          (nov1 [(1 : ℝ)]) (List.length [(1 : ℝ)])).2.getD i 0)
        (argmaxList (dpForward
          (fun d => ((computePenalty (List.length [(1 : ℝ)]) 2).map (· * 1)).getD d 0)
          (nov1 [(1 : ℝ)]) (List.length [(1 : ℝ)])).1)
        (argmaxList (dpForward
          (fun d => ((computePenalty (List.length [(1 : ℝ)]) 2).map (· * 1)).getD d 0)
          (nov1 [(1 : ℝ)]) (List.length [(1 : ℝ)])).1)).reverse.map
            (fun i : ℕ => (i : ℤ) - 1)) :=
  (compute_beat_sequence_follows_spec_dp [(1 : ℝ)] 2 1 (by simp)).2.2.2

/-- Claim C3 counterexample: on the length-1 novelty curve `[1]` the source
returns the single beat index `[0]`, not the empty sequence the claim
demands for curves shorter than 2 samples. -/
theorem beat_sequence_singleton_not_empty :
    computeBeatSequence [(1 : ℝ)] 2 1 = some [0] ∧
      computeBeatSequence [(1 : ℝ)] 2 1 ≠ some [] := by
  have h : computeBeatSequence [(1 : ℝ)] 2 1 = some [0] := by
    rw [computeBeatSequence]
    simp only [computeBeatSequenceP, List.length_singleton]
    norm_num [dpForward, nov1, argmaxList, argmaxAux, backtrack]
  refine ⟨h, ?_⟩
  rw [h]
  simp

/-- Claim C3 (amended): `compute_beat_sequence` does not return an empty beat
sequence on short curves.  On an empty novelty curve it crashes with an
`IndexError` (modelled as `none`); on a length-1 curve it returns the single
index `[0]` when the value is positive and `[-1]` otherwise. -/
theorem beat_sequence_short_input_behavior (v beatRef factor : ℝ) :
    computeBeatSequence ([] : List ℝ) beatRef factor = none ∧
      computeBeatSequence [v] beatRef factor = some [if 0 < v then 0 else -1] := by
  constructor
  · rw [computeBeatSequence]
    simp [computeBeatSequenceP]
  · rw [computeBeatSequence]
    simp only [computeBeatSequenceP, List.length_singleton]
    by_cases h : 0 < v
    · simp [dpForward, nov1, argmaxList, argmaxAux, backtrack, h]
    · simp [dpForward, nov1, argmaxList, argmaxAux, backtrack, h]

/-- Claim C4 counterexample: on the all-zero curve `[0, 0]` (length 2) the
source returns `[-1]`, which is not a valid frame index in `0..N-1`. -/
theorem beat_sequence_all_zero_returns_neg_one :
    computeBeatSequence [(0 : ℝ), 0] 2 1 = some [-1] ∧
      ¬ (∀ B, computeBeatSequence [(0 : ℝ), 0] 2 1 = some B → ∀ b ∈ B, 0 ≤ b) := by
  have hpen : (computePenalty 2 2)[1]?.getD 0 ≤ (0 : ℝ) := by
    simp [computePenalty]
  have h : computeBeatSequence [(0 : ℝ), 0] 2 1 = some [-1] := by
    rw [computeBeatSequence]
    simp only [computeBeatSequenceP, List.length_cons, List.length_nil]
    norm_num [dpForward, dpScores, listMax, nov1, argmaxList, argmaxAux, backtrack, hpen]
  refine ⟨h, ?_⟩
  intro hcon
  have := hcon [-1] h (-1) (by simp)
  omega

/-- Claim C4 (amended): for every novelty curve with non-negative entries
containing at least one strictly positive value (and any reference period and
factor), the returned beat sequence is strictly increasing and every entry is
a valid 0-based frame index `0..N-1`.  The all-zero curve is the only
exception, where the backtrack starts at the sentinel and yields `[-1]`. -/
theorem beat_sequence_indices_wellFormed (novelty : List ℝ) (beatRef factor : ℝ)
    (_hnn : ∀ x ∈ novelty, 0 ≤ x) (hpos : ∃ x ∈ novelty, 0 < x) :
    ∃ B, computeBeatSequence novelty beatRef factor = some B ∧
      List.Chain' (· < ·) B ∧ ∀ b ∈ B, 0 ≤ b ∧ b < (novelty.length : ℤ) :=
  computeBeatSequenceP_wellFormed novelty _ hpos

/-- Witness for the amended C4 at the concrete curve `[0, 1]`. -/
theorem beat_sequence_indices_wellFormed_witness :
    ∃ B, computeBeatSequence [(0 : ℝ), 1] 2 1 = some B ∧
      List.Chain' (· < ·) B ∧ ∀ b ∈ B, 0 ≤ b ∧ b < ((List.length [(0 : ℝ), 1] : ℕ) : ℤ) :=
  beat_sequence_indices_wellFormed [(0 : ℝ), 1] 2 1
    (by intro x hx; rcases List.mem_cons.mp hx with rfl | hx <;> simp_all)
    ⟨1, by simp, by norm_num⟩

end DijonClaims

namespace Dijon

/-! ### Novelty cache (`notebooks/scratch/widget/widget_novelty.py`)

`get_novelty_for_method` keys a session dict by the `NoveltyParams` tuple
`(method, N, H, gamma, M)`.  The dict is modelled as an association list with
most-recent-insertion-first lookup; `gamma : float | None` becomes
`Option ℚ` (dict keys compare by value). -/

/-- The `NoveltyParams` cache key `(method, N, H, gamma, M)`. -/
abbrev NovKey : Type := String × ℕ × ℕ × Option ℚ × ℕ

/-- `key in cache` / `cache[key]` on the session dict. -/
def cacheLookup {V : Type*} (c : List (NovKey × V)) (k : NovKey) : Option V :=
  (c.find? (fun p => p.1 == k)).map (fun p => p.2)

/-- `get_novelty_for_method`: return the cached value when the key is
present; otherwise compute it (a pure function of the key for a fixed signal
and sample rate - each novelty method is deterministic), store it, and return
it.  Returns the value together with the updated cache. -/
def getNoveltyForMethod {V : Type*} (cache : List (NovKey × V))
    (compute : NovKey → V) (k : NovKey) : V × List (NovKey × V) :=
  match cacheLookup cache k with
  | some v => (v, cache)
  | none => (compute k, (k, compute k) :: cache)

end Dijon

namespace DijonClaims

open Dijon

/-- Claim C7: computing a novelty curve through the cache and looking up the
same `NoveltyParams` key a second time in the same session returns the
identical curve, and the second lookup does not change the cache (no
recomputation). -/
theorem novelty_cache_roundtrip {V : Type*} (cache : List (NovKey × V))
    (compute : NovKey → V) (k : NovKey) :
    (getNoveltyForMethod (getNoveltyForMethod cache compute k).2 compute k).1 =
      (getNoveltyForMethod cache compute k).1 ∧
    (getNoveltyForMethod (getNoveltyForMethod cache compute k).2 compute k).2 =
      (getNoveltyForMethod cache compute k).2 := by
  cases h : cacheLookup cache k with
  | some v =>
    simp only [getNoveltyForMethod, h]
    trivial
  | none =>
    have h2 : cacheLookup ((k, compute k) :: cache) k = some (compute k) := by
      rw [cacheLookup, List.find?_cons_of_pos]
      · rfl
      · simp
    simp only [getNoveltyForMethod, h, h2]
    trivial

end DijonClaims

namespace Dijon

/-! ### Metric chromagram beat extraction (`src/dijon/chromagram/methods.py`) -/

/-- `_extract_beat_times_from_meter_map(meter_map, duration=, tol=)`, on the
time column of the meter map (the ndarray shape/dtype/finiteness checks are
enforced by the embedding's types).  `ValueError` becomes `Except.error`; the
check order is the source's: emptiness, strict monotonicity (`np.diff > 0`),
range against `[-tol, duration + tol]` on the first/last entries, then
`np.clip` to `[0, duration]`, the two auto-paddings, and the two post-padding
checks.  `metric_chromagram_mvp` calls this (line 188) before any chroma
computation or aggregation. -/
noncomputable def extractBeatTimesFromMeterMap (times : List ℝ)
    (duration tol : ℝ) : Except String (List ℝ) :=
  if times.length < 1 then Except.error "meter_map must contain at least one row"
  else if ¬ List.Chain' (· < ·) times then
    Except.error "time_sec must be strictly increasing"
  else if times.getD 0 0 < -tol ∨ duration + tol < times.getD (times.length - 1) 0 then
    Except.error "time_sec out of range"
  else
    let clipped := times.map (fun t => min (max t 0) duration)
    let padded1 := if tol < clipped.getD 0 0 then 0 :: clipped else clipped
    let padded := if padded1.getD (padded1.length - 1) 0 < duration - tol
      then padded1 ++ [duration] else padded1
    if padded.length < 2 then Except.error "need at least two beat boundaries"
    else if ¬ List.Chain' (· < ·) padded then
      Except.error "boundaries must be strictly increasing after padding"
    else Except.ok padded

theorem getLast?_cons_of_ne_nil {β : Type*} (a : β) {l : List β} (h : l ≠ []) :
    (a :: l).getLast? = l.getLast? := by
  cases l with
  | nil => exact absurd rfl h
  | cons b t => exact List.getLast?_cons_cons

theorem getD_last_mem {β : Type*} [Inhabited β] {l : List β} (h : l ≠ []) :
    l.getD (l.length - 1) default ∈ l := by
  have hlt : l.length - 1 < l.length := by
    cases l with
    | nil => exact absurd rfl h
    | cons b t => simp
  rw [List.getD_eq_getElem _ _ hlt]
  exact List.getElem_mem _

theorem getLast?_eq_getD {β : Type*} [Inhabited β] {l : List β} (h : l ≠ []) :
    l.getLast? = some (l.getD (l.length - 1) default) := by
  have hlt : l.length - 1 < l.length := by
    cases l with
    | nil => exact absurd rfl h
    | cons b t => simp
  rw [List.getLast?_eq_getElem? l, List.getD_eq_getElem _ _ hlt]
  exact List.getElem?_eq_getElem hlt

/-! ### Tempogram engine (`src/dijon/tempogram/methods.py`)

The three tempogram methods.  Real arrays are lists; a 2-D grid is a list of
rows.  `scipy.interpolate.interp1d(..., kind="linear", axis=0,
fill_value="extrapolate")` is embedded by `interpRowAt`: the query index is
`searchsorted` (the count of grid points strictly below the query) clipped to
`[1, len-1]`, and the two bracketing rows are combined linearly — which is
exactly scipy's formula, including linear extrapolation beyond both ends.
scipy sorts a non-`assume_sorted` grid ascending first, so the autocorrelation
method interpolates over the reversed (ascending) BPM axis and rows. -/

/-- `np.hanning(N)`: the symmetric Hann window
`0.5 - 0.5 cos(2 pi n / (N - 1))`, with NumPy's conventions for `N ≤ 1`. -/
noncomputable def hanningSym : ℕ → List ℝ
  | 0 => []
  | 1 => [1]
  | N + 2 => (List.range (N + 2)).map (fun n : ℕ =>
      1 / 2 - 1 / 2 * Real.cos (2 * Real.pi * n / (N + 1)))

theorem hanningSym_length (N : ℕ) : (hanningSym N).length = N := by
  match N with
  | 0 => rfl
  | 1 => rfl
  | N + 2 => simp [hanningSym]

/-- One output row of `interp1d(xs, rows, kind="linear", axis=0,
fill_value="extrapolate")` evaluated at `q`, for an ascending grid `xs`. -/
noncomputable def interpRowAt (xs : List ℝ) (rows : List (List ℝ)) (q : ℝ) :
    List ℝ :=
  let idx := min (max (xs.countP (fun v => decide (v < q))) 1) (xs.length - 1)
  let xlo := xs.getD (idx - 1) 0
  let xhi := xs.getD idx 0
  let ylo := rows.getD (idx - 1) []
  let yhi := rows.getD idx []
  List.zipWith (fun a b => a + (b - a) / (xhi - xlo) * (q - xlo)) ylo yhi

theorem interpRowAt_length (xs : List ℝ) (rows : List (List ℝ)) (q : ℝ) (C : ℕ)
    (hrows : ∀ r ∈ rows, r.length = C) (hlen : rows.length = xs.length)
    (h2 : 2 ≤ xs.length) : (interpRowAt xs rows q).length = C := by
  rw [interpRowAt]
  have hidx1 : 1 ≤ min (max (xs.countP (fun v => decide (v < q))) 1) (xs.length - 1) := by
    refine le_min (le_max_right _ _) ?_
    omega
  have hidx2 : min (max (xs.countP (fun v => decide (v < q))) 1) (xs.length - 1) ≤
      xs.length - 1 := min_le_right _ _
  have hmem : ∀ i < rows.length, rows.getD i [] ∈ rows := by
    intro i hi
    rw [List.getD_eq_getElem _ _ hi]
    exact List.getElem_mem _
  have h1 : (rows.getD (min (max (xs.countP (fun v => decide (v < q))) 1)
      (xs.length - 1) - 1) []).length = C :=
    hrows _ (hmem _ (by omega))
  have h2' : (rows.getD (min (max (xs.countP (fun v => decide (v < q))) 1)
      (xs.length - 1)) []).length = C :=
    hrows _ (hmem _ (by omega))
  rw [List.length_zipWith, h1, h2']
  exact min_self C

/-- `compute_tempogram_fourier(x, Fs, N, H, Theta)`: for every candidate tempo
the novelty curve is zero-padded by `N // 2` on both sides, multiplied by a
complex exponential of frequency `theta / 60` Hz, and summed under a Hann
window per hop-aligned frame.  Returns `(X, T_coef, F_coef_BPM)`.  Faithful
for valid parameters (`H ≥ 1` and padded length at least `N`; otherwise the
source crashes on a negative dimension). -/
noncomputable def computeTempogramFourier (x : List ℝ) (Fs : ℝ) (N H : ℕ)
    (Theta : List ℝ) : List (List ℂ) × List ℝ × List ℝ :=
  let L := x.length
  let Npad := N / 2
  let Lpad := L + 2 * Npad
  let xpad : ℕ → ℝ := fun t =>
    if t < Npad then 0 else if t < Npad + L then x.getD (t - Npad) 0 else 0
  let M := (Lpad - N) / H + 1
  let win := hanningSym N
  let X := Theta.map (fun θ : ℝ => (List.range M).map (fun n : ℕ =>
    ∑ t in Finset.range N, ((win.getD t 0 : ℝ) : ℂ) * ((xpad (n * H + t) : ℝ) : ℂ) *
      Complex.exp (-2 * Real.pi * Complex.I * (((θ / 60) / Fs : ℝ) : ℂ) *
        ((n * H + t : ℕ) : ℂ))))
  let Tcoef := (List.range M).map (fun n : ℕ => (n : ℝ) * H / Fs)
  (X, Tcoef, Theta)

/-- `_compute_autocorrelation_local(x, Fs, N, H, norm_sum)`: the signal is
zero-padded by `round(N / 2)` (Python banker's rounding) on both sides, and
each hop-aligned frame contributes the lag-indexed autocorrelation
`r_xx[lag] = sum_j x[j] * x[j + lag]`, optionally divided by the summand
count `N - lag`.  Returns `(A, T_coef, F_coef_lag)` with `A` indexed
(lag, frame). -/
noncomputable def computeAutocorrelationLocal (x : List ℝ) (Fs : ℝ) (N H : ℕ)
    (normSum : Bool) : List (List ℝ) × List ℝ × List ℝ :=
  let Lleft := if N % 2 = 0 then N / 2 else N / 2 + N / 2 % 2
  let Lpad := Lleft + x.length + Lleft
  let xpad : ℕ → ℝ := fun t =>
    if t < Lleft then 0 else if t < Lleft + x.length then x.getD (t - Lleft) 0 else 0
  let M := (Lpad - N) / H + 1
  let A := (List.range N).map (fun lag : ℕ => (List.range M).map (fun n : ℕ =>
    (∑ j in Finset.range (N - lag), xpad (n * H + j) * xpad (n * H + j + lag)) /
      (if normSum then ((N - lag : ℕ) : ℝ) else 1)))
  let Tcoef := (List.range M).map (fun n : ℕ => (n : ℝ) * H / Fs)
  let Flag := (List.range N).map (fun i : ℕ => (i : ℝ) / Fs)
  (A, Tcoef, Flag)

/-- `compute_tempogram_autocorr(x, Fs, N, H, norm_sum, Theta)`: lags between
`ceil(Fs * 60 / tempo_max)` and `ceil(Fs * 60 / tempo_min)` are cut out of the
local autocorrelation, relabelled in BPM (`60 / lag_sec`), and linearly
resampled onto the fixed axis `Theta` (scipy sorts the descending BPM grid
ascending, hence the `reverse`).  Returns `(tempogram, T_coef, Theta)`. -/
noncomputable def computeTempogramAutocorr (x : List ℝ) (Fs : ℝ) (N H : ℕ)
    (normSum : Bool) (Theta : List ℝ) : List (List ℝ) × List ℝ × List ℝ :=
  let tempoMin := Theta.getD 0 0
  let tempoMax := Theta.getD (Theta.length - 1) 0
  let lagMin := (⌈Fs * 60 / tempoMax⌉).toNat
  let lagMax := (⌈Fs * 60 / tempoMin⌉).toNat
  let ACL := computeAutocorrelationLocal x Fs N H normSum
  let Acut := (ACL.1.drop lagMin).take (lagMax + 1 - lagMin)
  let FlagCut := (ACL.2.2.drop lagMin).take (lagMax + 1 - lagMin)
  let FBPMcut := FlagCut.map (fun v => 60 / v)
  let tempogram := Theta.map (fun θ => interpRowAt FBPMcut.reverse Acut.reverse θ)
  (tempogram, ACL.2.1, Theta)

/-- `np.mean(axis=0)` over a stack of equal-length rows. -/
noncomputable def meanRows (rows : List (List ℝ)) : List ℝ :=
  match rows with
  | [] => []
  | r :: rs => (rs.foldl (fun acc row => List.zipWith (· + ·) acc row) r).map
      (fun v => v / ((rs.length : ℝ) + 1))

theorem meanRows_length (rows : List (List ℝ)) (C : ℕ) (hne : rows ≠ [])
    (hrows : ∀ r ∈ rows, r.length = C) : (meanRows rows).length = C := by
  match rows, hne with
  | r :: rs, _ =>
    rw [meanRows, List.length_map]
    have hr : r.length = C := hrows r (List.mem_cons_self _ _)
    have hfold : ∀ (l : List (List ℝ)) (acc : List ℝ), acc.length = C →
        (∀ s ∈ l, s.length = C) →
        (l.foldl (fun acc row => List.zipWith (· + ·) acc row) acc).length = C := by
      intro l
      induction l with
      | nil => intro acc hacc _; exact hacc
      | cons s l2 ih =>
        intro acc hacc hl
        rw [List.foldl_cons]
        refine ih _ ?_ ?_
        · rw [List.length_zipWith, hacc, hl s (List.mem_cons_self _ _)]
          exact min_self C
        · intro u hu
          exact hl u (List.mem_cons_of_mem _ hu)
    exact hfold rs r hr (fun s hs => hrows s (List.mem_cons_of_mem _ hs))

/-- `compute_cyclic_tempogram(tempogram, F_coef_BPM, tempo_ref, octave_bin,
octave_num)`: the input tempogram is log-resampled onto `octave_num` octaves
of `octave_bin` bins anchored at `tempo_ref`, then rows a fixed intra-octave
bin apart are averaged.  Returns `(tempogram_cyclic, F_coef_scale)`; the time
axis is inherited from the input tempogram (none is returned). -/
noncomputable def computeCyclicTempogram (tempogram : List (List ℝ))
    (FcoefBPM : List ℝ) (tempoRef : ℝ) (octaveBin octaveNum : ℕ) :
    List (List ℝ) × List ℝ :=
  let FBPMlog := (List.range (octaveNum * octaveBin)).map
    (fun i : ℕ => tempoRef * (2 : ℝ) ^ ((i : ℝ) / (octaveBin : ℝ)))
  let Fscale := (List.range octaveBin).map
    (fun i : ℕ => (2 : ℝ) ^ ((i : ℝ) / (octaveBin : ℝ)))
  let tlog := FBPMlog.map (fun q => interpRowAt FcoefBPM tempogram q)
  let cyc := (List.range octaveBin).map (fun m : ℕ =>
    meanRows ((List.range octaveNum).map (fun o : ℕ => tlog.getD (m + o * octaveBin) [])))
  (cyc, Fscale)

/-! ### Energy novelty and resampling (`src/dijon/novelty/methods.py`)

`compute_novelty_energy` and `_resample_novelty_to_target`, embedded line by
line.  `np.round` is banker's rounding; it is modelled as `⌊x + 1/2⌋`, which
agrees with it except at exact half-integer ties to an odd integer (the
concrete evaluations below hit no tie). -/

/-- `np.convolve(a, v)` (mode `"full"`): `out[n] = sum_m a[m] * v[n-m]`. -/
noncomputable def convFull (a v : List ℝ) : List ℝ :=
  (List.range (a.length + v.length - 1)).map (fun n : ℕ =>
    ∑ m in Finset.range a.length, if m ≤ n then a.getD m 0 * v.getD (n - m) 0 else 0)

/-- `np.convolve(a, v, "same")` for `len(a) ≥ len(v)`: the centred `len(a)`
values of the full convolution. -/
noncomputable def convSame (a v : List ℝ) : List ℝ :=
  ((convFull a v).drop ((v.length - 1) / 2)).take a.length

/-- NumPy slicing `l[::H]` (for `H ≥ 1`). -/
noncomputable def decimate (l : List ℝ) (H : ℕ) : List ℝ :=
  (List.range ((l.length + H - 1) / H)).map (fun i : ℕ => l.getD (i * H) 0)

/-- `np.diff`: first discrete difference. -/
noncomputable def diffList (l : List ℝ) : List ℝ :=
  List.zipWith (fun a b => b - a) l l.tail

/-- Half-wave rectification `arr[arr < 0] = 0`. -/
noncomputable def rectify (l : List ℝ) : List ℝ :=
  l.map (fun v => if v < 0 then 0 else v)

/-- The concluding max-normalisation: divide by the maximum when positive,
otherwise leave the curve unchanged. -/
noncomputable def normalizeMax (l : List ℝ) : List ℝ :=
  if 0 < listMax l then l.map (fun v => v / listMax l) else l

/-- Scalar `interp1d(xs, ys, kind="linear", fill_value="extrapolate")` at `q`
for an ascending grid: `searchsorted` clipped to `[1, len-1]`, then the linear
formula through the two bracketing points (which extrapolates past both
ends). -/
noncomputable def interpAt (xs ys : List ℝ) (q : ℝ) : ℝ :=
  let idx := min (max (xs.countP (fun v => decide (v < q))) 1) (xs.length - 1)
  let xlo := xs.getD (idx - 1) 0
  let xhi := xs.getD idx 0
  let ylo := ys.getD (idx - 1) 0
  let yhi := ys.getD idx 0
  ylo + (yhi - ylo) / (xhi - xlo) * (q - xlo)

/-- `_resample_novelty_to_target(novelty, Fs_in, Fs_target)`: sample times
`arange(len)/Fs_in`, query times `linspace(0, duration, n_out,
endpoint=False)` with `n_out = max(1, round(duration * Fs_target))`, linear
interpolation with extrapolation.  The final query times can exceed the last
sample time `(len-1)/Fs_in`, in which case the last segment's slope is
extrapolated. -/
noncomputable def resampleNoveltyToTarget (novelty : List ℝ) (FsIn FsTarget : ℝ) :
    List ℝ :=
  if FsIn ≤ 0 ∨ FsTarget ≤ 0 then novelty
  else
    let L := novelty.length
    let duration := (L : ℝ) / FsIn
    let nOut := max 1 (⌊duration * FsTarget + 1 / 2⌋.toNat)
    let tIn := (List.range L).map (fun i : ℕ => (i : ℝ) / FsIn)
    let tOut := (List.range nOut).map (fun k : ℕ => (k : ℝ) * duration / (nOut : ℝ))
    tOut.map (fun q => interpAt tIn novelty q)

/-- `compute_novelty_energy(x, Fs, N, H, gamma, norm, Fs_target)`: squared
signal convolved with the squared symmetric Hann window (mode `"same"`),
decimated by the hop, optionally log-compressed, differenced with a trailing
zero, half-wave rectified, optionally max-normalised, and finally resampled
to the target rate when it differs from the native rate `Fs / H` by more than
`1e-6`.  Returns the curve and its feature rate. -/
noncomputable def computeNoveltyEnergy (x : List ℝ) (Fs : ℝ) (N H : ℕ)
    (gamma : Option ℝ) (norm : Bool) (FsTarget : Option ℝ) : List ℝ × ℝ :=
  let w := hanningSym N
  let FsFeature := Fs / (H : ℝ)
  let e1 := convSame (x.map (fun v => v ^ 2)) (w.map (fun v => v ^ 2))
  let e2 := decimate e1 H
  let e3 := match gamma with
    | some g => e2.map (fun v => Real.log (1 + g * v))
    | none => e2
  let nov := rectify (diffList e3 ++ [0])
  let nov2 := if norm then normalizeMax nov else nov
  match FsTarget with
  | some ft =>
    if 1 / 1000000 < |FsFeature - ft| then
      (resampleNoveltyToTarget nov2 FsFeature ft, ft)
    else (nov2, FsFeature)
  | none => (nov2, FsFeature)

theorem hanningSym_three : hanningSym 3 = [0, 1, 0] := by
  have h : hanningSym 3 = (List.range 3).map
      (fun n : ℕ => 1 / 2 - 1 / 2 * Real.cos (2 * Real.pi * n / 2)) := by
    simp only [hanningSym]
    norm_num
  rw [h]
  have h0 : 2 * Real.pi * (0 : ℕ) / 2 = 0 := by norm_num
  have h1 : 2 * Real.pi * (1 : ℕ) / 2 = Real.pi := by push_cast; ring
  have h2 : 2 * Real.pi * (2 : ℕ) / 2 = 2 * Real.pi := by push_cast; ring
  simp only [List.range_succ, List.range_zero, List.map_append, List.map_cons,
    List.map_nil, List.nil_append, List.cons_append]
  rw [h0, h1, h2, Real.cos_zero, Real.cos_pi, Real.cos_two_pi]
  norm_num

/-! ### Meter classifier and labeler (`src/dijon/beats/meter.py`) -/

theorem argminAux_cases {α : Type*} [LinearOrder α] (t : List α) :
    ∀ (best : α) (bi i : ℕ), argminAux best bi i t = bi ∨
      (i ≤ argminAux best bi i t ∧ argminAux best bi i t < i + t.length) := by
  induction t with
  | nil => intro best bi i; exact Or.inl rfl
  | cons h s ih =>
    intro best bi i
    by_cases hlt : h < best
    · simp only [argminAux, if_pos hlt]
      rcases ih h i (i + 1) with heq | ⟨h1, h2⟩
      · right
        refine ⟨le_of_eq heq.symm, ?_⟩
        rw [heq]
        simp only [List.length_cons]
        omega
      · right
        constructor
        · omega
        · simp only [List.length_cons]
          omega
    · simp only [argminAux, if_neg hlt]
      rcases ih best bi (i + 1) with heq | ⟨h1, h2⟩
      · exact Or.inl heq
      · right
        constructor
        · omega
        · simp only [List.length_cons]
          omega

theorem argminList_lt_length {α : Type*} [LinearOrder α] {l : List α}
    (hne : l ≠ []) : argminList l < l.length := by
  cases l with
  | nil => exact absurd rfl hne
  | cons h t =>
    simp only [argminList, List.length_cons]
    rcases argminAux_cases t h 0 1 with heq | ⟨_, h2⟩
    · omega
    · omega

/-- `np.mean` of a nonempty array. -/
noncomputable def listMean (l : List ℝ) : ℝ := l.sum / l.length

/-- `np.std`: square root of the mean squared deviation. -/
noncomputable def listStd (l : List ℝ) : ℝ :=
  Real.sqrt (listMean (l.map (fun x => (x - listMean l) ^ 2)))

/-- `label_bars_and_beats(beat_times_sec, head_in_time_sec, beats_per_bar)`:
anchor index `i0` is the beat nearest the head-in time (`np.argmin` of absolute
differences, first occurrence on ties); each beat `i` is labelled
`(time, 1 + (i - i0) // B, 1 + (i - i0) % B)` with Python floor division and
sign-of-divisor modulo (`Int.fdiv` / `Int.fmod`). -/
def labelBarsAndBeats {α : Type*} [LinearOrderedField α]
    (b : List α) (headIn : α) (beatsPerBar : ℤ) : List (α × ℤ × ℤ) :=
  let i0 : ℤ := (argminList (b.map (fun t => |t - headIn|)) : ℕ)
  (List.range b.length).map (fun i : ℕ =>
    (b.getD i 0, 1 + ((i : ℤ) - i0).fdiv beatsPerBar,
      1 + ((i : ℤ) - i0).fmod beatsPerBar))

/-- `estimate_beats_per_bar(beat_times_sec, head_in_time_sec, x, sr)` from the
point where the two band energies are available.  The per-beat low/high RMS
energies are produced in the source by `compute_beat_energies`, which
band-filters the raw audio with scipy Butterworth filters (an external
collaborator, out of the embedded core); they enter here as the two input
lists, and everything after that call — normalisation by the standard
deviation plus `1e-10`, the candidate loop over `B ∈ [2, 3, 4]`, the
downbeat/other partition by `(i - i0) % B`, the skip of candidates lacking
either class, and the running-best update with initial default `best_B = 2` —
is embedded faithfully. -/
noncomputable def estimateBeatsPerBar (b : List ℝ) (headIn : ℝ)
    (lowE highE : List ℝ) : ℤ :=
  let i0 : ℤ := (argminList (b.map (fun t => |t - headIn|)) : ℕ)
  let lowNorm := lowE.map (fun x => x / (listStd lowE + 1 / 10000000000))
  let highNorm := highE.map (fun x => x / (listStd highE + 1 / 10000000000))
  let step := fun (st : Option ℝ × ℤ) (B : ℤ) =>
    let down := (List.range b.length).filter (fun i : ℕ => ((i : ℤ) - i0).fmod B == 0)
    let other := (List.range b.length).filter (fun i : ℕ => !(((i : ℤ) - i0).fmod B == 0))
    let dl := down.map (fun i => lowNorm.getD i 0)
    let ol := other.map (fun i => lowNorm.getD i 0)
    let dh := down.map (fun i => highNorm.getD i 0)
    let oh := other.map (fun i => highNorm.getD i 0)
    if dl = [] ∨ ol = [] then st
    else
      let score := (listMean dl - listMean ol) + (listMean oh - listMean dh)
      match st.1 with
      | none => (some score, B)
      | some best => if best < score then (some score, B) else st
  (([2, 3, 4] : List ℤ).foldl step (none, 2)).2

end Dijon

namespace DijonClaims

open Dijon

/-- Claim C5 counterexample: with beats `[0, 10]`, head-in anchor `10` and
`beats_per_bar = 4`, the beat before the anchor is labelled
`(0, bar 0, beat 4)` — its bar number `1 + ((0 - 1) // 4) = 0` is not a
positive integer. -/
theorem label_bars_beat_before_anchor_bar_zero :
    labelBarsAndBeats [(0 : ℚ), 10] 10 4 = [(0, 0, 4), (10, 1, 1)] ∧
      ¬ (∀ l ∈ labelBarsAndBeats [(0 : ℚ), 10] 10 4, 0 < l.2.1) := by
  have harg : argminList ([(0 : ℚ), 10].map (fun t => |t - 10|)) = 1 := by
    norm_num [argminList, argminAux]
  have h : labelBarsAndBeats [(0 : ℚ), 10] 10 4 = [(0, 0, 4), (10, 1, 1)] := by
    simp only [labelBarsAndBeats, harg]
    norm_num [List.range_succ]
    exact ⟨by decide, by decide⟩
  refine ⟨h, ?_⟩
  intro hcon
  have hmem : ((0 : ℚ), (0 : ℤ), (4 : ℤ)) ∈ labelBarsAndBeats [(0 : ℚ), 10] 10 4 := by
    rw [h]
    simp
  have := hcon _ hmem
  simp at this

/-- Claim C5 (amended): for every beat-time list, anchor and positive `B`,
every `beat_number` lies in `1..B` and cycles with the formula
`1 + (i - i0) % B`, the beat nearest the anchor is labelled `(bar 1, beat 1)`,
and `bar_number = 1 + (i - i0) // B` with Python floor division — which is
zero or negative (not positive) for beats far enough before the anchor. -/
theorem label_bars_and_beats_labels {α : Type*} [LinearOrderedField α]
    (b : List α) (headIn : α) (B : ℤ) (hB : 0 < B) (hne : b ≠ []) :
    (∀ l ∈ labelBarsAndBeats b headIn B, 1 ≤ l.2.2 ∧ l.2.2 ≤ B) ∧
    ((labelBarsAndBeats b headIn B).get?
        (argminList (b.map (fun t => |t - headIn|))) =
      some (b.getD (argminList (b.map (fun t => |t - headIn|))) 0, 1, 1)) ∧
    (∀ i < b.length, (labelBarsAndBeats b headIn B).get? i =
      some (b.getD i 0,
        1 + ((i : ℤ) - (argminList (b.map (fun t => |t - headIn|)) : ℕ)).fdiv B,
        1 + ((i : ℤ) - (argminList (b.map (fun t => |t - headIn|)) : ℕ)).fmod B)) := by
  have hget : ∀ i < b.length, (labelBarsAndBeats b headIn B).get? i =
      some (b.getD i 0,
        1 + ((i : ℤ) - (argminList (b.map (fun t => |t - headIn|)) : ℕ)).fdiv B,
        1 + ((i : ℤ) - (argminList (b.map (fun t => |t - headIn|)) : ℕ)).fmod B) := by
    intro i hi
    rw [labelBarsAndBeats]
    simp only [List.get?_eq_getElem?, List.getElem?_map, List.getElem?_range, hi,
      if_pos hi]
    rfl
  refine ⟨?_, ?_, hget⟩
  · intro l hl
    rw [labelBarsAndBeats] at hl
    simp only [List.mem_map, List.mem_range] at hl
    obtain ⟨i, _, rfl⟩ := hl
    have hfe : ((i : ℤ) - (argminList (b.map (fun t => |t - headIn|)) : ℕ)).fmod B =
        ((i : ℤ) - (argminList (b.map (fun t => |t - headIn|)) : ℕ)) % B :=
      Int.fmod_eq_emod _ (le_of_lt hB)
    constructor
    · show 1 ≤ 1 + ((i : ℤ) - _).fmod B
      rw [hfe]
      have := Int.emod_nonneg ((i : ℤ) - (argminList (b.map (fun t => |t - headIn|)) : ℕ))
        (ne_of_gt hB)
      omega
    · show 1 + ((i : ℤ) - _).fmod B ≤ B
      rw [hfe]
      have := Int.emod_lt_of_pos ((i : ℤ) - (argminList (b.map (fun t => |t - headIn|)) : ℕ)) hB
      omega
  · have hi0 : argminList (b.map (fun t => |t - headIn|)) < b.length := by
      have hmne : b.map (fun t => |t - headIn|) ≠ [] := by
        intro hc
        exact hne (List.map_eq_nil_iff.mp hc)
      have := argminList_lt_length hmne
      rwa [List.length_map] at this
    rw [hget _ hi0]
    simp [Int.zero_fdiv, Int.zero_fmod]

/-- Claim C6 counterexample: with a single beat, no candidate
`B ∈ {2, 3, 4}` has a non-downbeat sample, so every candidate is skipped —
yet `estimate_beats_per_bar` does not fail: it silently returns the
initialised default `best_B = 2`.  The energy inputs are irrelevant here
(zeros are passed). -/
theorem estimate_beats_per_bar_silent_default :
    estimateBeatsPerBar [(0 : ℝ)] 0 [0] [0] = 2 ∧
      (∀ B : ℤ, (List.range (List.length [(0 : ℝ)])).filter
        (fun i : ℕ => !(((i : ℤ) -
          (argminList ([(0 : ℝ)].map (fun t => |t - 0|)) : ℕ)).fmod B == 0)) = []) := by
  constructor
  · rw [estimateBeatsPerBar]
    norm_num [argminList, argminAux, List.filter]
  · intro B
    norm_num [argminList, argminAux, List.filter]

/-- Claim C6 (amended): when no candidate has both downbeat and non-downbeat
samples (a single-beat input), `estimate_beats_per_bar` silently returns the
default `beats_per_bar = 2` instead of failing fast, for every anchor time and
energy curves. -/
theorem estimate_beats_per_bar_single_beat (t headIn : ℝ) (lowE highE : List ℝ) :
    estimateBeatsPerBar [t] headIn lowE highE = 2 := by
  rw [estimateBeatsPerBar]
  norm_num [argminList, argminAux, List.filter]

/-- Claim C2 (code bug witness): the energy novelty method at the concrete
input `x = [0, 0, 1]` with `Fs = 50`, `N = 3`, `H = 1`, `gamma = None`,
`norm = True`, `Fs_target = 100` returns the curve
`[0, 1/2, 1, 1/2, 0, -1/2]`: the final resampling linearly extrapolates past
the last native sample and produces the negative entry `-1/2` at index 5,
contradicting both the claim's non-negativity and the source's own docstring
("normalize output to [0, 1]").  Before the resampling step the curve is the
half-wave-rectified, max-normalised `[0, 1, 0]`. -/
theorem energy_novelty_negative_after_resample :
    (computeNoveltyEnergy [(0 : ℝ), 0, 1] 50 3 1 none true (some 100)).1 =
      [0, 1 / 2, 1, 1 / 2, 0, -(1 / 2)] ∧
    (computeNoveltyEnergy [(0 : ℝ), 0, 1] 50 3 1 none true (some 100)).1.getD 5 0 < 0 := by
  have hwsq : (hanningSym 3).map (fun v => v ^ 2) = [0, 1, 0] := by
    rw [hanningSym_three]
    norm_num
  have hxsq : ([(0 : ℝ), 0, 1]).map (fun v => v ^ 2) = [0, 0, 1] := by norm_num
  have hfull : convFull [(0 : ℝ), 0, 1] [0, 1, 0] = [0, 0, 0, 1, 0] := by
    rw [convFull]
    norm_num [List.range_succ, Finset.sum_range_succ]
  have hsame : convSame [(0 : ℝ), 0, 1] [0, 1, 0] = [0, 0, 1] := by
    rw [convSame, hfull]
    norm_num
  have hdec : decimate [(0 : ℝ), 0, 1] 1 = [0, 0, 1] := by
    rw [decimate]
    norm_num [List.range_succ]
  have hrect : rectify (diffList [(0 : ℝ), 0, 1] ++ [0]) = [0, 1, 0] := by
    norm_num [diffList, rectify]
  have hmax : listMax [(0 : ℝ), 1, 0] = 1 := by
    norm_num [listMax]
  have hnorm : normalizeMax [(0 : ℝ), 1, 0] = [0, 1, 0] := by
    rw [normalizeMax, hmax]
    norm_num
  have hres : resampleNoveltyToTarget [(0 : ℝ), 1, 0] 50 100 =
      [0, 1 / 2, 1, 1 / 2, 0, -(1 / 2)] := by
    rw [resampleNoveltyToTarget, if_neg (by norm_num)]
    simp only [List.length_cons, List.length_nil]
    have hnOut : max 1 (⌊((3 : ℕ) : ℝ) / 50 * 100 + 1 / 2⌋.toNat) = 6 := by
      norm_num
      rfl
    rw [hnOut]
    have htIn : (List.range 3).map (fun i : ℕ => (i : ℝ) / 50) = [0, 1 / 50, 2 / 50] := by
      norm_num [List.range_succ]
    rw [htIn]
    simp only [List.range_succ, List.range_zero, List.map_append, List.map_cons,
      List.map_nil, List.nil_append, List.cons_append]
    have h0 : interpAt [0, 1 / 50, 2 / 50] [(0 : ℝ), 1, 0]
        (((0 : ℕ) : ℝ) * (((3 : ℕ) : ℝ) / 50) / ((6 : ℕ) : ℝ)) = 0 := by
      have hq : ((0 : ℕ) : ℝ) * (((3 : ℕ) : ℝ) / 50) / ((6 : ℕ) : ℝ) = 0 := by
        push_cast
        ring
      rw [hq, interpAt]
      have hc : ([0, 1 / 50, 2 / 50] : List ℝ).countP (fun v => decide (v < 0)) = 0 := by
        simp only [List.countP_cons, List.countP_nil, decide_eq_true_eq]
        norm_num
      rw [hc]
      norm_num
    have h1 : interpAt [0, 1 / 50, 2 / 50] [(0 : ℝ), 1, 0]
        (((1 : ℕ) : ℝ) * (((3 : ℕ) : ℝ) / 50) / ((6 : ℕ) : ℝ)) = 1 / 2 := by
      have hq : ((1 : ℕ) : ℝ) * (((3 : ℕ) : ℝ) / 50) / ((6 : ℕ) : ℝ) = 1 / 100 := by
        push_cast
        ring
      rw [hq, interpAt]
      have hc : ([0, 1 / 50, 2 / 50] : List ℝ).countP
          (fun v => decide (v < 1 / 100)) = 1 := by
        simp only [List.countP_cons, List.countP_nil, decide_eq_true_eq]
        norm_num
      rw [hc]
      norm_num
    have h2 : interpAt [0, 1 / 50, 2 / 50] [(0 : ℝ), 1, 0]
        (((2 : ℕ) : ℝ) * (((3 : ℕ) : ℝ) / 50) / ((6 : ℕ) : ℝ)) = 1 := by
      have hq : ((2 : ℕ) : ℝ) * (((3 : ℕ) : ℝ) / 50) / ((6 : ℕ) : ℝ) = 1 / 50 := by
        push_cast
        ring
      rw [hq, interpAt]
      have hc : ([0, 1 / 50, 2 / 50] : List ℝ).countP
          (fun v => decide (v < 1 / 50)) = 1 := by
        simp only [List.countP_cons, List.countP_nil, decide_eq_true_eq]
        norm_num
      rw [hc]
      norm_num
    have h3 : interpAt [0, 1 / 50, 2 / 50] [(0 : ℝ), 1, 0]
        (((3 : ℕ) : ℝ) * (((3 : ℕ) : ℝ) / 50) / ((6 : ℕ) : ℝ)) = 1 / 2 := by
      have hq : ((3 : ℕ) : ℝ) * (((3 : ℕ) : ℝ) / 50) / ((6 : ℕ) : ℝ) = 3 / 100 := by
        push_cast
        ring
      rw [hq, interpAt]
      have hc : ([0, 1 / 50, 2 / 50] : List ℝ).countP
          (fun v => decide (v < 3 / 100)) = 2 := by
        simp only [List.countP_cons, List.countP_nil, decide_eq_true_eq]
        norm_num
      rw [hc]
      norm_num
    have h4 : interpAt [0, 1 / 50, 2 / 50] [(0 : ℝ), 1, 0]
        (((4 : ℕ) : ℝ) * (((3 : ℕ) : ℝ) / 50) / ((6 : ℕ) : ℝ)) = 0 := by
      have hq : ((4 : ℕ) : ℝ) * (((3 : ℕ) : ℝ) / 50) / ((6 : ℕ) : ℝ) = 1 / 25 := by
        push_cast
        ring
      rw [hq, interpAt]
      have hc : ([0, 1 / 50, 2 / 50] : List ℝ).countP
          (fun v => decide (v < 1 / 25)) = 2 := by
        simp only [List.countP_cons, List.countP_nil, decide_eq_true_eq]
        norm_num
      rw [hc]
      norm_num
    have h5 : interpAt [0, 1 / 50, 2 / 50] [(0 : ℝ), 1, 0]
        (((5 : ℕ) : ℝ) * (((3 : ℕ) : ℝ) / 50) / ((6 : ℕ) : ℝ)) = -(1 / 2) := by
      have hq : ((5 : ℕ) : ℝ) * (((3 : ℕ) : ℝ) / 50) / ((6 : ℕ) : ℝ) = 1 / 20 := by
        push_cast
        ring
      rw [hq, interpAt]
      have hc : ([0, 1 / 50, 2 / 50] : List ℝ).countP
          (fun v => decide (v < 1 / 20)) = 3 := by
        simp only [List.countP_cons, List.countP_nil, decide_eq_true_eq]
        norm_num
      rw [hc]
      norm_num
    rw [h0, h1, h2, h3, h4, h5]
  have hmain : (computeNoveltyEnergy [(0 : ℝ), 0, 1] 50 3 1 none true (some 100)).1 =
      [0, 1 / 2, 1, 1 / 2, 0, -(1 / 2)] := by
    rw [computeNoveltyEnergy]
    simp only [hxsq, hwsq, hsame, hdec, hrect]
    rw [if_pos (by norm_num : (1 : ℝ) / 1000000 < |50 / ((1 : ℕ) : ℝ) - 100|)]
    simp only [hnorm]
    have hcast : (50 : ℝ) / ((1 : ℕ) : ℝ) = 50 := by norm_num
    rw [hcast, if_pos trivial, hres]
  refine ⟨hmain, ?_⟩
  rw [hmain]
  norm_num

/-- Claim C8: for each of the three tempogram methods, the returned grid's
row count equals the tempo-axis length and its column count equals the
time-axis length.  For the Fourier and autocorrelation methods the tempo axis
is the returned `Theta` and the time axis the returned `T_coef`; the cyclic
method returns the octave-folded scale axis as its tempo axis and inherits
the input tempogram's time axis (of length equal to the input's column count
`C`), returning none itself.  Hypotheses are the validity conditions of each
method: positive hop and sufficient padding (Fourier), a non-degenerate lag
range inside the autocorrelation (autocorrelation), and at least one octave
over a rectangular input with an interpolable BPM grid (cyclic). -/
theorem tempogram_shapes :
    (∀ (x : List ℝ) (Fs : ℝ) (N H : ℕ) (Theta : List ℝ), 1 ≤ H →
      N ≤ x.length + 2 * (N / 2) →
      (computeTempogramFourier x Fs N H Theta).1.length =
        (computeTempogramFourier x Fs N H Theta).2.2.length ∧
      ∀ row ∈ (computeTempogramFourier x Fs N H Theta).1,
        row.length = (computeTempogramFourier x Fs N H Theta).2.1.length) ∧
    (∀ (x : List ℝ) (Fs : ℝ) (N H : ℕ) (normSum : Bool) (Theta : List ℝ),
      (⌈Fs * 60 / Theta.getD (Theta.length - 1) 0⌉).toNat + 1 ≤
        (⌈Fs * 60 / Theta.getD 0 0⌉).toNat →
      (⌈Fs * 60 / Theta.getD 0 0⌉).toNat < N →
      (computeTempogramAutocorr x Fs N H normSum Theta).1.length =
        (computeTempogramAutocorr x Fs N H normSum Theta).2.2.length ∧
      ∀ row ∈ (computeTempogramAutocorr x Fs N H normSum Theta).1,
        row.length = (computeTempogramAutocorr x Fs N H normSum Theta).2.1.length) ∧
    (∀ (tempogram : List (List ℝ)) (FcoefBPM : List ℝ) (tempoRef : ℝ)
      (octaveBin octaveNum C : ℕ), 1 ≤ octaveNum →
      (∀ r ∈ tempogram, r.length = C) → tempogram.length = FcoefBPM.length →
      2 ≤ FcoefBPM.length →
      (computeCyclicTempogram tempogram FcoefBPM tempoRef octaveBin octaveNum).1.length =
        (computeCyclicTempogram tempogram FcoefBPM tempoRef octaveBin octaveNum).2.length ∧
      ∀ row ∈ (computeCyclicTempogram tempogram FcoefBPM tempoRef octaveBin octaveNum).1,
        row.length = C) := by
  refine ⟨?_, ?_, ?_⟩
  · intro x Fs N H Theta _ _
    constructor
    · simp [computeTempogramFourier]
    · intro row hrow
      simp only [computeTempogramFourier, List.mem_map] at hrow
      obtain ⟨θ, _, rfl⟩ := hrow
      simp [computeTempogramFourier]
  · intro x Fs N H normSum Theta hlag1 hlag2
    constructor
    · simp [computeTempogramAutocorr]
    · intro row hrow
      simp only [computeTempogramAutocorr, computeAutocorrelationLocal,
        List.mem_map] at hrow ⊢
      obtain ⟨θ, _, rfl⟩ := hrow
      rw [List.length_map, List.length_range]
      refine interpRowAt_length _ _ _ _ ?_ ?_ ?_
      · intro r hr
        rw [List.mem_reverse] at hr
        have hr2 := List.mem_of_mem_drop (List.mem_of_mem_take hr)
        simp only [List.mem_map, List.mem_range] at hr2
        obtain ⟨lag, _, rfl⟩ := hr2
        rw [List.length_map, List.length_range]
      · simp only [List.length_reverse, List.length_map, List.length_take,
          List.length_drop, List.length_range]
      · simp only [List.length_reverse, List.length_map, List.length_take,
          List.length_drop, List.length_range]
        omega
  · intro tempogram FcoefBPM tempoRef octaveBin octaveNum C hoct hrows hlen h2
    constructor
    · simp [computeCyclicTempogram]
    · intro row hrow
      simp only [computeCyclicTempogram, List.mem_map, List.mem_range] at hrow
      obtain ⟨m, hm, rfl⟩ := hrow
      have htloglen : ((List.range (octaveNum * octaveBin)).map
          (fun i : ℕ => tempoRef * (2 : ℝ) ^ ((i : ℝ) / (octaveBin : ℝ))) |>.map
          (fun q => interpRowAt FcoefBPM tempogram q)).length = octaveNum * octaveBin := by
        simp
      refine meanRows_length _ C ?_ ?_
      · intro hcon
        have := congrArg List.length hcon
        simp at this
        omega
      · intro r hr
        simp only [List.mem_map, List.mem_range] at hr
        obtain ⟨o, ho, rfl⟩ := hr
        have hidx : m + o * octaveBin < octaveNum * octaveBin := by
          have h1 : o * octaveBin ≤ (octaveNum - 1) * octaveBin :=
            Nat.mul_le_mul_right _ (by omega)
          have h2' : (octaveNum - 1) * octaveBin + octaveBin = octaveNum * octaveBin := by
            have : octaveNum - 1 + 1 = octaveNum := by omega
            calc (octaveNum - 1) * octaveBin + octaveBin
                = ((octaveNum - 1) + 1) * octaveBin := by ring
              _ = octaveNum * octaveBin := by rw [this]
          omega
        have hgetmem : (((List.range (octaveNum * octaveBin)).map
            (fun i : ℕ => tempoRef * (2 : ℝ) ^ ((i : ℝ) / (octaveBin : ℝ)))).map
            (fun q => interpRowAt FcoefBPM tempogram q)).getD (m + o * octaveBin) [] ∈
            ((List.range (octaveNum * octaveBin)).map
            (fun i : ℕ => tempoRef * (2 : ℝ) ^ ((i : ℝ) / (octaveBin : ℝ)))).map
            (fun q => interpRowAt FcoefBPM tempogram q) := by
          rw [List.getD_eq_getElem _ _ (by rw [htloglen]; exact hidx)]
          exact List.getElem_mem _
        rw [List.mem_map] at hgetmem
        obtain ⟨q, _, hq⟩ := hgetmem
        rw [← hq]
        exact interpRowAt_length _ _ _ C hrows hlen h2

/-- Witness for C8: the three shape statements at concrete inputs (a length-2
novelty at `N=2, H=1, Theta=[60]` for Fourier; a length-6 novelty at
`N=4, H=1, Theta=[30, 60]` for autocorrelation, where the lag range is
`1..2`; a 2x2 tempogram folded over one bin and two octaves for cyclic). -/
theorem tempogram_shapes_witness :
    ((computeTempogramFourier [(1 : ℝ), 0] 1 2 1 [60]).1.length =
        (computeTempogramFourier [(1 : ℝ), 0] 1 2 1 [60]).2.2.length ∧
      ∀ row ∈ (computeTempogramFourier [(1 : ℝ), 0] 1 2 1 [60]).1,
        row.length = (computeTempogramFourier [(1 : ℝ), 0] 1 2 1 [60]).2.1.length) ∧
    ((computeTempogramAutocorr [(1 : ℝ), 0, 0, 0, 0, 0] 1 4 1 false [30, 60]).1.length =
        (computeTempogramAutocorr [(1 : ℝ), 0, 0, 0, 0, 0] 1 4 1 false [30, 60]).2.2.length ∧
      ∀ row ∈ (computeTempogramAutocorr [(1 : ℝ), 0, 0, 0, 0, 0] 1 4 1 false [30, 60]).1,
        row.length =
          (computeTempogramAutocorr [(1 : ℝ), 0, 0, 0, 0, 0] 1 4 1 false [30, 60]).2.1.length) ∧
    ((computeCyclicTempogram [[(1 : ℝ), 1], [2, 2]] [40, 80] 40 1 2).1.length =
        (computeCyclicTempogram [[(1 : ℝ), 1], [2, 2]] [40, 80] 40 1 2).2.length ∧
      ∀ row ∈ (computeCyclicTempogram [[(1 : ℝ), 1], [2, 2]] [40, 80] 40 1 2).1,
        row.length = 2) := by
  refine ⟨?_, ?_, ?_⟩
  · exact tempogram_shapes.1 [(1 : ℝ), 0] 1 2 1 [60] (by norm_num) (by norm_num)
  · refine tempogram_shapes.2.1 [(1 : ℝ), 0, 0, 0, 0, 0] 1 4 1 false [30, 60] ?_ ?_
    · norm_num
    · norm_num
  · refine tempogram_shapes.2.2 [[(1 : ℝ), 1], [2, 2]] [40, 80] 40 1 2 2 (by norm_num)
      ?_ (by norm_num) (by norm_num)
    intro r hr
    rcases List.mem_cons.mp hr with rfl | hr
    · norm_num
    · rcases List.mem_cons.mp hr with rfl | hr
      · norm_num
      · cases hr

/-- Claim C10: `_extract_beat_times_from_meter_map` silently auto-pads a valid
meter map (prepending a `0.0` boundary when the first beat time exceeds the
tolerance, appending the signal duration when the last beat time falls short
of `duration - tol`), while a meter map whose times are not strictly
increasing, or whose first/last times fall outside `[-tol, duration + tol]`,
is rejected with an error; `metric_chromagram_mvp` performs this call before
any chroma computation or aggregation (its line 188). -/
theorem meter_map_validation_and_autopadding :
    (∀ (times : List ℝ) (duration tol : ℝ), times ≠ [] → 0 ≤ tol →
      2 * tol < duration → List.Chain' (· < ·) times →
      (∀ t ∈ times, 0 ≤ t ∧ t ≤ duration) →
      extractBeatTimesFromMeterMap times duration tol = Except.ok
        ((if tol < times.getD 0 0 then [0] else []) ++ times ++
          (if times.getD (times.length - 1) 0 < duration - tol then [duration] else []))) ∧
    (∀ (times : List ℝ) (duration tol : ℝ), times ≠ [] →
      ¬ List.Chain' (· < ·) times →
      extractBeatTimesFromMeterMap times duration tol =
        Except.error "time_sec must be strictly increasing") ∧
    (∀ (times : List ℝ) (duration tol : ℝ), times ≠ [] →
      List.Chain' (· < ·) times →
      (times.getD 0 0 < -tol ∨ duration + tol < times.getD (times.length - 1) 0) →
      extractBeatTimesFromMeterMap times duration tol =
        Except.error "time_sec out of range") := by
  refine ⟨?_, ?_, ?_⟩
  · intro times duration tol hne htol hdur hchain hrange
    obtain ⟨t0, ts, rfl⟩ := List.exists_cons_of_ne_nil hne
    have hLmem : (t0 :: ts).getD ((t0 :: ts).length - 1) 0 ∈ (t0 :: ts) :=
      getD_last_mem hne
    obtain ⟨hL0, hLd⟩ := hrange _ hLmem
    obtain ⟨hh0, hhd⟩ := hrange t0 (List.mem_cons_self _ _)
    have hgd0 : (t0 :: ts).getD 0 0 = t0 := rfl
    have hclip : (t0 :: ts).map (fun t => min (max t 0) duration) = t0 :: ts := by
      have h1 : ∀ t ∈ (t0 :: ts), min (max t 0) duration = t := by
        intro t ht
        obtain ⟨ha, hb⟩ := hrange t ht
        rw [max_eq_left ha, min_eq_left hb]
      rw [List.map_congr_left h1]
      exact List.map_id _
    have hLlast : (t0 :: ts).getLast? =
        some ((t0 :: ts).getD ((t0 :: ts).length - 1) 0) := getLast?_eq_getD hne
    rw [extractBeatTimesFromMeterMap]
    rw [if_neg (by simp)]
    rw [if_neg (not_not_intro hchain)]
    rw [if_neg (by push_neg; constructor <;> linarith)]
    simp only [hclip]
    by_cases hpre : tol < (t0 :: ts).getD 0 0
    · rw [if_pos hpre, if_pos hpre]
      have h0t0 : (0 : ℝ) < t0 := by
        rw [hgd0] at hpre
        linarith
      have hchain0 : List.Chain' (· < ·) (0 :: t0 :: ts) := by
        rw [List.chain'_cons']
        refine ⟨?_, hchain⟩
        intro y hy
        simp only [List.head?_cons, Option.mem_def, Option.some_inj] at hy
        rw [← hy]
        exact h0t0
      have hplast : (0 :: t0 :: ts).getD ((0 :: t0 :: ts).length - 1) 0 =
          (t0 :: ts).getD ((t0 :: ts).length - 1) 0 := by
        simp only [List.length_cons, Nat.add_sub_cancel]
        rw [List.getD_cons_succ]
      rw [hplast]
      by_cases happ : (t0 :: ts).getD ((t0 :: ts).length - 1) 0 < duration - tol
      · rw [if_pos happ, if_pos happ]
        rw [if_neg (by simp)]
        have hchainA : List.Chain' (· < ·) ((0 :: t0 :: ts) ++ [duration]) := by
          rw [List.chain'_append]
          refine ⟨hchain0, List.chain'_singleton _, ?_⟩
          intro x hx y hy
          rw [getLast?_cons_of_ne_nil 0 hne, hLlast] at hx
          simp only [Option.mem_def, Option.some_inj] at hx
          simp only [List.head?_cons, Option.mem_def, Option.some_inj] at hy
          rw [← hx, ← hy]
          linarith
        rw [if_neg (not_not_intro hchainA)]
        simp
      · rw [if_neg happ, if_neg happ]
        rw [if_neg (by simp)]
        rw [if_neg (not_not_intro hchain0)]
        simp
    · rw [if_neg hpre, if_neg hpre]
      by_cases happ : (t0 :: ts).getD ((t0 :: ts).length - 1) 0 < duration - tol
      · rw [if_pos happ, if_pos happ]
        rw [if_neg (by simp)]
        have hchainA : List.Chain' (· < ·) ((t0 :: ts) ++ [duration]) := by
          rw [List.chain'_append]
          refine ⟨hchain, List.chain'_singleton _, ?_⟩
          intro x hx y hy
          rw [hLlast] at hx
          simp only [Option.mem_def, Option.some_inj] at hx
          simp only [List.head?_cons, Option.mem_def, Option.some_inj] at hy
          rw [← hx, ← hy]
          linarith
        rw [if_neg (not_not_intro hchainA)]
        simp
      · rw [if_neg happ, if_neg happ]
        have hts : ts ≠ [] := by
          intro hcon
          subst hcon
          rw [hgd0] at hpre
          simp only [List.length_cons, List.length_nil, Nat.add_sub_cancel] at happ
          rw [hgd0] at happ
          push_neg at hpre happ
          linarith
        obtain ⟨t1, ts1, rfl⟩ := List.exists_cons_of_ne_nil hts
        rw [if_neg (by simp)]
        rw [if_neg (not_not_intro hchain)]
        simp
  · intro times duration tol hne hnot
    rw [extractBeatTimesFromMeterMap]
    rw [if_neg (by have := List.length_pos.mpr hne; omega)]
    rw [if_pos hnot]
  · intro times duration tol hne hchain hrg
    rw [extractBeatTimesFromMeterMap]
    rw [if_neg (by have := List.length_pos.mpr hne; omega)]
    rw [if_neg (not_not_intro hchain)]
    rw [if_pos hrg]

/-- Witness for C10: the three branches at concrete inputs.  With beats
`[0.3, 0.6]`, duration `1`, tolerance `0.01`, both pads fire; `[0.6, 0.3]` is
rejected for monotonicity; `[0.3, 1.2]` with duration `1` for range. -/
theorem meter_map_validation_and_autopadding_witness :
    extractBeatTimesFromMeterMap [(0.3 : ℝ), 0.6] 1 0.01 = Except.ok
      ((if (0.01 : ℝ) < ([(0.3 : ℝ), 0.6]).getD 0 0 then [0] else []) ++ [(0.3 : ℝ), 0.6] ++
        (if ([(0.3 : ℝ), 0.6]).getD (([(0.3 : ℝ), 0.6]).length - 1) 0 < 1 - 0.01
          then [1] else [])) ∧
    extractBeatTimesFromMeterMap [(0.6 : ℝ), 0.3] 1 0.01 =
      Except.error "time_sec must be strictly increasing" ∧
    extractBeatTimesFromMeterMap [(0.3 : ℝ), 1.2] 1 0.01 =
      Except.error "time_sec out of range" := by
  refine ⟨?_, ?_, ?_⟩
  · exact meter_map_validation_and_autopadding.1 [(0.3 : ℝ), 0.6] 1 0.01 (by simp)
      (by norm_num) (by norm_num) (by norm_num)
      (by intro t ht; rcases List.mem_cons.mp ht with rfl | ht <;> simp_all <;> norm_num)
  · exact meter_map_validation_and_autopadding.2.1 [(0.6 : ℝ), 0.3] 1 0.01 (by simp)
      (by norm_num)
  · exact meter_map_validation_and_autopadding.2.2 [(0.3 : ℝ), 1.2] 1 0.01 (by simp)
      (by norm_num) (by norm_num)

/-- Witness for the amended C5 at beats `[0, 1]`, anchor `1`, `B = 4`
(over `ℚ`). -/
theorem label_bars_and_beats_labels_witness :
    (∀ l ∈ labelBarsAndBeats [(0 : ℚ), 1] 1 4, 1 ≤ l.2.2 ∧ l.2.2 ≤ 4) ∧
    ((labelBarsAndBeats [(0 : ℚ), 1] 1 4).get?
        (argminList ([(0 : ℚ), 1].map (fun t => |t - 1|))) =
      some ([(0 : ℚ), 1].getD (argminList ([(0 : ℚ), 1].map (fun t => |t - 1|))) 0, 1, 1)) ∧
    (∀ i < ([(0 : ℚ), 1] : List ℚ).length, (labelBarsAndBeats [(0 : ℚ), 1] 1 4).get? i =
      some ([(0 : ℚ), 1].getD i 0,
        1 + ((i : ℤ) - (argminList ([(0 : ℚ), 1].map (fun t => |t - 1|)) : ℕ)).fdiv 4,
        1 + ((i : ℤ) - (argminList ([(0 : ℚ), 1].map (fun t => |t - 1|)) : ℕ)).fmod 4)) :=
  label_bars_and_beats_labels [(0 : ℚ), 1] 1 4 (by decide) (by simp)

end DijonClaims

namespace Dijon

/-! ### Complex-domain novelty: core vs widget variant
(`src/dijon/novelty/methods.py` `compute_novelty_complex` and
`notebooks/scratch/widget/widget_novelty.py`
`_compute_novelty_batch_shared_stft`, complex branch)

Both variants consume the same `librosa.stft(x, n_fft=N, hop_length=H,
win_length=N, window="hann")` (periodic Hann window, `center=True` with
constant zero padding of `n_fft // 2`, `N/2 + 1` bins).  The core method
predicts each frame's phase from the two prior frames
(`phi_hat[t] = 2 phi[t-1] - phi[t-2]`) and zeroes the first two output
frames; the widget method predicts from one prior frame's phase plus its
last phase difference (with a zero difference appended at the final frame)
and gates only frames `t >= 1`.  Both are embedded without the trailing
resampling (`Fs_target=None` for the core; the widget caches its native-rate
curve). -/

noncomputable def hannPeriodic (N : ℕ) : List ℝ :=
  (List.range N).map (fun n : ℕ => 1 / 2 - 1 / 2 * Real.cos (2 * Real.pi * n / N))

noncomputable def stft (x : List ℝ) (N H : ℕ) : (ℕ → ℕ → ℂ) × ℕ × ℕ :=
  let L := x.length
  let pad := N / 2
  let xpad : ℕ → ℝ := fun t =>
    if t < pad then 0 else if t < pad + L then x.getD (t - pad) 0 else 0
  let T := (L + 2 * pad - N) / H + 1
  let K := N / 2 + 1
  let X : ℕ → ℕ → ℂ := fun k m =>
    ∑ n in Finset.range N, (((hannPeriodic N).getD n 0 : ℝ) : ℂ) *
      ((xpad (m * H + n) : ℝ) : ℂ) *
      Complex.exp (-2 * (Real.pi : ℂ) * Complex.I * (k : ℂ) * (n : ℂ) / (N : ℂ))
  (X, K, T)

theorem exp_quarter (m : ℕ) :
    Complex.exp (-(((m : ℕ) : ℂ) * ((Real.pi : ℂ) / 2)) * Complex.I) =
      (-Complex.I) ^ m := by
  induction m with
  | zero => simp
  | succ k ih =>
    have hsplit : (-((((k + 1 : ℕ) : ℂ)) * ((Real.pi : ℂ) / 2)) * Complex.I) =
        (-(((k : ℕ) : ℂ) * ((Real.pi : ℂ) / 2)) * Complex.I) +
          (-((Real.pi : ℂ) / 2) * Complex.I) := by
      push_cast
      ring
    rw [hsplit, Complex.exp_add, ih]
    have hexp : Complex.exp (-((Real.pi : ℂ) / 2) * Complex.I) = -Complex.I := by
      have h1 : (-((Real.pi : ℂ) / 2)) = ((-(Real.pi / 2) : ℝ) : ℂ) := by push_cast; ring
      rw [h1, Complex.exp_mul_I, ← Complex.ofReal_cos, ← Complex.ofReal_sin]
      rw [Real.cos_neg, Real.sin_neg, Real.cos_pi_div_two, Real.sin_pi_div_two]
      simp
    rw [hexp, pow_succ]

theorem hann4 : hannPeriodic 4 = [0, 1 / 2, 1, 1 / 2] := by
  rw [hannPeriodic]
  have h0 : 2 * Real.pi * ((0 : ℕ) : ℝ) / ((4 : ℕ) : ℝ) = 0 := by push_cast; ring
  have h1 : 2 * Real.pi * ((1 : ℕ) : ℝ) / ((4 : ℕ) : ℝ) = Real.pi / 2 := by push_cast; ring
  have h2 : 2 * Real.pi * ((2 : ℕ) : ℝ) / ((4 : ℕ) : ℝ) = Real.pi := by push_cast; ring
  have h3 : 2 * Real.pi * ((3 : ℕ) : ℝ) / ((4 : ℕ) : ℝ) = Real.pi + Real.pi / 2 := by
    push_cast; ring
  simp only [List.range_succ, List.range_zero, List.map_append, List.map_cons,
    List.map_nil, List.nil_append, List.cons_append]
  rw [h0, h1, h2, h3, Real.cos_zero, Real.cos_pi_div_two, Real.cos_pi]
  rw [Real.cos_add, Real.cos_pi, Real.sin_pi, Real.cos_pi_div_two]
  norm_num

theorem exp4 (k n : ℕ) : Complex.exp (-2 * (Real.pi : ℂ) * Complex.I * (k : ℂ) *
    (n : ℂ) / ((4 : ℕ) : ℂ)) = (-Complex.I) ^ (k * n) := by
  have h : -2 * (Real.pi : ℂ) * Complex.I * (k : ℂ) * (n : ℂ) / ((4 : ℕ) : ℂ) =
      -(((k * n : ℕ) : ℂ) * ((Real.pi : ℂ) / 2)) * Complex.I := by
    push_cast
    ring
  rw [h, exp_quarter]

theorem X20 : (stft [(1 : ℝ), 0, 0] 4 1).1 2 0 = 1 := by
  simp only [stft]
  rw [Finset.sum_range_succ, Finset.sum_range_succ, Finset.sum_range_succ,
    Finset.sum_range_succ, Finset.sum_range_zero]
  simp only [exp4, hann4]
  have hI4 : (-Complex.I) ^ 4 = 1 := by
    have h2 : (-Complex.I) ^ 2 = -1 := by
      rw [pow_two]
      simp [Complex.I_mul_I]
    have : (-Complex.I) ^ 4 = ((-Complex.I) ^ 2) ^ 2 := by ring
    rw [this, h2]
    ring
  norm_num [hI4]

theorem X21 : (stft [(1 : ℝ), 0, 0] 4 1).1 2 1 = -(1 / 2) := by
  simp only [stft]
  rw [Finset.sum_range_succ, Finset.sum_range_succ, Finset.sum_range_succ,
    Finset.sum_range_succ, Finset.sum_range_zero]
  simp only [exp4, hann4]
  have hI2 : (-Complex.I) ^ 2 = -1 := by
    rw [pow_two]
    simp [Complex.I_mul_I]
  have hI4 : (-Complex.I) ^ 4 = 1 := by
    have h : (-Complex.I) ^ 4 = ((-Complex.I) ^ 2) ^ 2 := by ring
    rw [h, hI2]
    ring
  have hI6 : (-Complex.I) ^ 6 = -1 := by
    have h : (-Complex.I) ^ 6 = ((-Complex.I) ^ 2) ^ 3 := by ring
    rw [h, hI2]
    ring
  norm_num [hI2, hI4, hI6]

noncomputable def computeLocalAverage (l : List ℝ) (M : ℕ) : List ℝ :=
  (List.range l.length).map (fun m : ℕ =>
    (1 / (2 * (M : ℝ) + 1)) * ∑ j in Finset.Ico (m - M) (min (m + M + 1) l.length), l.getD j 0)

noncomputable def principalAngleRad (a : ℝ) : ℝ :=
  (a + Real.pi) - 2 * Real.pi * ⌊(a + Real.pi) / (2 * Real.pi)⌋ - Real.pi


/-- The optionally log-compressed STFT magnitude shared by both variants. -/
noncomputable def novMag (X : ℕ → ℕ → ℂ) (gamma : ℝ) (k t : ℕ) : ℝ :=
  if 0 < gamma then Real.log (1 + gamma * Complex.abs (X k t)) else Complex.abs (X k t)

noncomputable def corePhiHat (X : ℕ → ℕ → ℂ) (k t : ℕ) : ℝ :=
  principalAngleRad (2 * Complex.arg (X k (t - 1)) - Complex.arg (X k (t - 2)))

noncomputable def coreXhat (X : ℕ → ℕ → ℂ) (gamma : ℝ) (k t : ℕ) : ℂ :=
  ((novMag X gamma k (t - 1) : ℝ) : ℂ) * Complex.exp (((corePhiHat X k t : ℝ) : ℂ) * Complex.I)

noncomputable def coreR (X : ℕ → ℕ → ℂ) (gamma : ℝ) (k t : ℕ) : ℝ :=
  Complex.abs (X k t - coreXhat X gamma k t)

noncomputable def computeNoveltyComplexCore (x : List ℝ) (N H : ℕ) (gamma : ℝ)
    (M : ℕ) (norm : Bool) : List ℝ :=
  let S := stft x N H
  if S.2.2 < 3 then List.replicate S.2.2 0
  else
    let nov := (List.range S.2.2).map (fun t : ℕ =>
      if t < 2 then (0 : ℝ)
      else ∑ k in Finset.range S.2.1,
        if novMag S.1 gamma k (t - 1) ≤ novMag S.1 gamma k t then coreR S.1 gamma k t else 0)
    let nov2 := if 0 < M then
      rectify (List.zipWith (fun a b => a - b) nov (computeLocalAverage nov M))
      else nov
    if norm then normalizeMax nov2 else nov2

noncomputable def widgetPhase (X : ℕ → ℕ → ℂ) (k t : ℕ) : ℝ :=
  Complex.arg (X k t) / (2 * Real.pi)

noncomputable def widgetPhaseDiff (X : ℕ → ℕ → ℂ) (T k t : ℕ) : ℝ :=
  if t + 1 < T then widgetPhase X k (t + 1) - widgetPhase X k t else 0

noncomputable def widgetXhat (X : ℕ → ℕ → ℂ) (gamma : ℝ) (T k t : ℕ) : ℂ :=
  ((novMag X gamma k t : ℝ) : ℂ) *
    Complex.exp (((2 * Real.pi * (widgetPhase X k t + widgetPhaseDiff X T k t) : ℝ) : ℂ) *
      Complex.I)

noncomputable def widgetXplus (X : ℕ → ℕ → ℂ) (gamma : ℝ) (T k t : ℕ) : ℝ :=
  if 0 < t ∧ novMag X gamma k t < novMag X gamma k (t - 1) then 0
  else Complex.abs (widgetXhat X gamma T k t - X k t)

noncomputable def computeNoveltyComplexWidget (x : List ℝ) (N H : ℕ) (gamma : ℝ)
    (M : ℕ) : List ℝ :=
  let S := stft x N H
  let nov := (List.range S.2.2).map (fun t : ℕ =>
    ∑ k in Finset.range S.2.1, widgetXplus S.1 gamma S.2.2 k t)
  let nov2 := if 0 < M then
    rectify (List.zipWith (fun a b => a - b) nov (computeLocalAverage nov M)) else nov
  normalizeMax nov2

theorem stft_T : (stft [(1 : ℝ), 0, 0] 4 1).2.2 = 4 := by
  simp [stft]

theorem stft_K : (stft [(1 : ℝ), 0, 0] 4 1).2.1 = 3 := by
  simp [stft]

theorem normalizeMax_getD0_eq_zero (l : List ℝ) (h : l.getD 0 0 = 0) :
    (normalizeMax l).getD 0 0 = 0 := by
  rw [normalizeMax]
  by_cases hm : 0 < listMax l
  · rw [if_pos hm]
    cases l with
    | nil => simp
    | cons a t =>
      simp only [List.getD_cons_zero, List.map_cons] at h ⊢
      rw [h]
      exact zero_div _
  · rw [if_neg hm]
    exact h

theorem normalizeMax_getD0_pos (l : List ℝ) (h : 0 < l.getD 0 0) :
    0 < (normalizeMax l).getD 0 0 := by
  have hne : l ≠ [] := by
    intro hc
    rw [hc] at h
    simp at h
  have hmem : l.getD 0 0 ∈ l := by
    have hlt : 0 < l.length := List.length_pos.mpr hne
    rw [List.getD_eq_getElem _ _ hlt]
    exact List.getElem_mem _
  have hmax : 0 < listMax l := lt_of_lt_of_le h (le_listMax hmem)
  rw [normalizeMax, if_pos hmax]
  cases l with
  | nil => exact absurd rfl hne
  | cons a t =>
    simp only [List.getD_cons_zero, List.map_cons] at h ⊢
    exact div_pos h hmax

theorem core_entry_zero :
    (computeNoveltyComplexCore [(1 : ℝ), 0, 0] 4 1 0 0 true).getD 0 0 = 0 := by
  rw [computeNoveltyComplexCore]
  rw [stft_T, stft_K]
  rw [if_neg (by norm_num : ¬ (4 : ℕ) < 3)]
  simp only []
  rw [if_pos trivial]
  apply normalizeMax_getD0_eq_zero
  rw [if_neg (by norm_num : ¬ (0 : ℕ) < 0)]
  rw [List.getD_eq_getElem _ _ (by simp)]
  simp only [List.getElem_map, List.getElem_range]
  rw [if_pos (by norm_num)]

theorem widgetXplus_nonneg (X : ℕ → ℕ → ℂ) (gamma : ℝ) (T k t : ℕ) :
    0 ≤ widgetXplus X gamma T k t := by
  rw [widgetXplus]
  split
  · exact le_refl 0
  · exact AbsoluteValue.nonneg _ _

theorem widget_term2 :
    widgetXplus ((stft [(1 : ℝ), 0, 0] 4 1).1) 0 4 2 0 = 2 := by
  rw [widgetXplus, if_neg (by simp)]
  rw [widgetXhat]
  have hmag : novMag ((stft [(1 : ℝ), 0, 0] 4 1).1) 0 2 0 = 1 := by
    rw [novMag, if_neg (lt_irrefl 0), X20]
    simp
  have hang : 2 * Real.pi * (widgetPhase ((stft [(1 : ℝ), 0, 0] 4 1).1) 2 0 +
      widgetPhaseDiff ((stft [(1 : ℝ), 0, 0] 4 1).1) 4 2 0) =
      Complex.arg ((stft [(1 : ℝ), 0, 0] 4 1).1 2 1) := by
    rw [widgetPhaseDiff, if_pos (by norm_num : (0 : ℕ) + 1 < 4)]
    rw [widgetPhase, widgetPhase]
    have hpi : (2 : ℝ) * Real.pi ≠ 0 := by
      have := Real.pi_ne_zero
      positivity
    field_simp
  have habs21 : Complex.abs ((stft [(1 : ℝ), 0, 0] 4 1).1 2 1) = 1 / 2 := by
    rw [X21]
    rw [show (-(1 / 2) : ℂ) = ((-(1 / 2) : ℝ) : ℂ) from by norm_num]
    rw [Complex.abs_ofReal]
    norm_num
  have hexp : Complex.exp
      (((Complex.arg ((stft [(1 : ℝ), 0, 0] 4 1).1 2 1) : ℝ) : ℂ) * Complex.I) = -1 := by
    rw [X21]
    have habsl : Complex.abs (-(1 / 2) : ℂ) = 1 / 2 := by
      rw [show (-(1 / 2) : ℂ) = ((-(1 / 2) : ℝ) : ℂ) from by norm_num]
      rw [Complex.abs_ofReal]
      norm_num
    have h := Complex.abs_mul_exp_arg_mul_I (-(1 / 2) : ℂ)
    rw [habsl] at h
    have hc : ((1 / 2 : ℝ) : ℂ) = (1 / 2 : ℂ) := by norm_num
    rw [hc] at h
    linear_combination 2 * h
  rw [hmag, hang, hexp, X20]
  rw [show ((1 : ℝ) : ℂ) * (-1) - 1 = ((-2 : ℝ) : ℂ) from by push_cast; ring]
  rw [Complex.abs_ofReal]
  norm_num

theorem widget_entry_pos :
    0 < (computeNoveltyComplexWidget [(1 : ℝ), 0, 0] 4 1 0 0).getD 0 0 := by
  rw [computeNoveltyComplexWidget]
  rw [stft_T, stft_K]
  apply normalizeMax_getD0_pos
  rw [if_neg (by norm_num : ¬ (0 : ℕ) < 0)]
  rw [List.getD_eq_getElem _ _ (by simp)]
  simp only [List.getElem_map, List.getElem_range]
  rw [Finset.sum_range_succ, Finset.sum_range_succ, Finset.sum_range_succ,
    Finset.sum_range_zero]
  rw [widget_term2]
  have h0 := widgetXplus_nonneg ((stft [(1 : ℝ), 0, 0] 4 1).1) 0 4 0 0
  have h1 := widgetXplus_nonneg ((stft [(1 : ℝ), 0, 0] 4 1).1) 0 4 1 0
  linarith

end Dijon

namespace DijonClaims

open Dijon

/-- Claim C9: the two complex-domain novelty implementations are not
numerically interchangeable: on the signal `x = [1, 0, 0]` with shared
parameters `N = 4`, `H = 1`, `gamma = 0`, `M = 0` they produce different
novelty curves.  The core method zeroes its first two frames, so its curve
starts at `0`; the widget variant's first frame compares `|X[k,0]|` rotated
to frame 1's phase against `X[k,0]` and is strictly positive here (its bin
`k = 2` contributes `|1 * (-1) - 1| = 2`), and stays positive after
max-normalisation. -/
theorem complex_novelty_variants_differ :
    computeNoveltyComplexWidget [(1 : ℝ), 0, 0] 4 1 0 0 ≠
      computeNoveltyComplexCore [(1 : ℝ), 0, 0] 4 1 0 0 true := by
  intro heq
  have h := congrArg (fun l : List ℝ => l.getD 0 0) heq
  simp only at h
  rw [core_entry_zero] at h
  have hpos := widget_entry_pos
  rw [h] at hpos
  exact lt_irrefl 0 hpos

end DijonClaims
